import Mathlib

/-!
Verification development for the version-aware API merge engine of the
`wow-ts-decl` repository (`src/api.ts`, `src/types.ts`, `src/utils.ts`).

The TypeScript source delegates version handling to the `semver` npm
package (`SemVer`, `Range`, `satisfies`, `subset`).  Entities only ever
hold versions of the shape `major.minor.patch` (no prerelease or build
metadata) and ranges built from the primitive comparators
`''`(exact) `<` `<=` `>` `>=` and `*`, so the embedding models exactly the
fragment of node-semver's grammar that this program exercises: parsing,
formatting, membership tests and the `subset` algorithm are transcribed
from node-semver for that fragment, over genuine character lists.
-/

namespace WowDecl

/-! ## Decimal numerals

Node renders version components with JavaScript number-to-string
conversion (base-10, no leading zeros) and its semver regex accepts
`0|[1-9][0-9]*` for each component.  We model printing and parsing of
such numerals over `List Char`. -/

/-- The decimal digit character for `d` (meaningful for `d < 10`). -/
def digitChar (d : Nat) : Char :=
  match d with
  | 0 => '0' | 1 => '1' | 2 => '2' | 3 => '3' | 4 => '4'
  | 5 => '5' | 6 => '6' | 7 => '7' | 8 => '8' | _ => '9'

/-- Numeric value of a digit character. -/
def digitVal (c : Char) : Nat := c.toNat - 48

/-- Fuel-driven digit renderer (structural recursion so that concrete
values compute inside the kernel); `natChars` supplies enough fuel. -/
def natCharsAux : Nat → Nat → List Char
  | 0, _ => []
  | fuel + 1, n =>
    if n < 10 then [digitChar n]
    else natCharsAux fuel (n / 10) ++ [digitChar (n % 10)]

/-- Base-10 rendering of a natural number, most significant digit first
(mirrors JavaScript `String(n)` for naturals). -/
def natChars (n : Nat) : List Char :=
  natCharsAux (n + 1) n

/-- Accumulating base-10 value of a digit string. -/
def charsToNat (l : List Char) : Nat :=
  l.foldl (fun a c => 10 * a + digitVal c) 0

/-- A numeral accepted by node-semver's version regex: nonempty, all
digits, no leading zero (`0|[1-9][0-9]*`). -/
def wellFormedNum (l : List Char) : Bool :=
  !l.isEmpty && l.all Char.isDigit && (l.head? != some '0' || l == ['0'])

/-- Parse a full numeral token. -/
def parseNum (l : List Char) : Option Nat :=
  if wellFormedNum l then some (charsToNat l) else none

/-! ## Point versions (node-semver `SemVer`)

The program only ever constructs `SemVer` from fully specified
`major.minor.patch` strings with no prerelease or build part, so a point
version is three naturals.  `Semver.chars`/`Semver.str` is the canonical
rendering, which node-semver stores in both `.raw` and `.version` for
such inputs. -/

structure Semver where
  major : Nat
  minor : Nat
  patch : Nat
deriving DecidableEq, Repr

/-- node-semver `compare` on prerelease-free versions: lexicographic on
(major, minor, patch). -/
def Semver.comp (a b : Semver) : Ordering :=
  match compare a.major b.major with
  | .eq =>
    match compare a.minor b.minor with
    | .eq => compare a.patch b.patch
    | o => o
  | o => o

/-- Canonical `major.minor.patch` character rendering. -/
def Semver.chars (v : Semver) : List Char :=
  natChars v.major ++ ('.' :: (natChars v.minor ++ ('.' :: natChars v.patch)))

/-- Canonical `major.minor.patch` string (node `SemVer.version` / `.raw`). -/
def Semver.str (v : Semver) : String :=
  String.mk v.chars

/-- Split on a single separator character (JS `str.split(sep)`). -/
def splitOnChar (sep : Char) : List Char → List (List Char)
  | [] => [[]]
  | c :: rest =>
    if c = sep then [] :: splitOnChar sep rest
    else
      match splitOnChar sep rest with
      | [] => [[c]]
      | b :: bs => (c :: b) :: bs

/-- Split on the two-character separator `||` (JS `str.split('||')`):
non-overlapping occurrences, scanned left to right. -/
def splitPipes : List Char → List (List Char)
  | [] => [[]]
  | [c] => [[c]]
  | c :: d :: rest =>
    if c = '|' ∧ d = '|' then [] :: splitPipes rest
    else
      match splitPipes (d :: rest) with
      | [] => [[c]]
      | b :: bs => (c :: b) :: bs

/-- Drop ASCII spaces from both ends (JS `str.trim()`; the strings this
program manipulates contain no other whitespace). -/
def trimChars (l : List Char) : List Char :=
  ((l.dropWhile (· = ' ')).reverse.dropWhile (· = ' ')).reverse

/-- Join with a single space (JS `arr.join(' ')`). -/
def joinSpace : List (List Char) → List Char
  | [] => []
  | [b] => b
  | b :: bs => b ++ ' ' :: joinSpace bs

/-- Join with `||` (JS `arr.join('||')`). -/
def joinPipes : List (List Char) → List Char
  | [] => []
  | [b] => b
  | b :: bs => b ++ '|' :: '|' :: joinPipes bs

/-- Comparator operator.  node's empty operator (exact match) is `eq`. -/
inductive Cop
  | lt | le | gt | ge | eq
deriving DecidableEq, Repr

/-- One comparator of a simple range. -/
inductive Comparator
  | any
  | cmp (op : Cop) (ver : Semver)
deriving DecidableEq, Repr

/-- Rendering of the operator (node's `Comparator.operator`; `eq` is the
empty string). -/
def Cop.chars : Cop → List Char
  | .lt => ['<']
  | .le => ['<', '=']
  | .gt => ['>']
  | .ge => ['>', '=']
  | .eq => []

/-- node `Comparator.value` / `toString`: operator text followed by the
version; the ANY comparator renders as the empty string. -/
def Comparator.chars : Comparator → List Char
  | .any => []
  | .cmp op v => op.chars ++ v.chars

/-- node `Comparator.test` (`cmp(version, operator, this.semver)`) on
prerelease-free versions. -/
def Comparator.test (c : Comparator) (v : Semver) : Bool :=
  match c with
  | .any => true
  | .cmp op w =>
    match op with
    | .eq => v.comp w == .eq
    | .lt => v.comp w == .lt
    | .le => v.comp w != .gt
    | .gt => v.comp w == .gt
    | .ge => v.comp w != .lt

/-- Parse a `major.minor.patch` version token (the fragment of node's
version grammar this program uses: no `v` prefix, prerelease or build). -/
def parseSemTok (l : List Char) : Option Semver :=
  match splitOnChar '.' l with
  | [a, b, c] => do
    let ma ← parseNum a
    let mi ← parseNum b
    let pa ← parseNum c
    pure ⟨ma, mi, pa⟩
  | _ => none

/-- node `valid(str)`: does the string parse as a point version?
(Used by the persistence schema to discriminate point from range.) -/
def validSemTok (l : List Char) : Bool :=
  (parseSemTok l).isSome

/-- Parse one comparator token.  Mirrors node's comparator regex for the
primitive operators: optional `>=`, `<=`, `>`, `<`, `=` prefix followed
by a full version; `*` and the empty token are the ANY comparator. -/
def parseCompTok (l : List Char) : Option Comparator :=
  if l = [] then some .any
  else if l = ['*'] then some .any
  else if l.take 2 = ['>', '='] then (parseSemTok (l.drop 2)).map (.cmp .ge)
  else if l.take 2 = ['<', '='] then (parseSemTok (l.drop 2)).map (.cmp .le)
  else if l.take 1 = ['>'] then (parseSemTok (l.drop 1)).map (.cmp .gt)
  else if l.take 1 = ['<'] then (parseSemTok (l.drop 1)).map (.cmp .lt)
  else if l.take 1 = ['='] then (parseSemTok (l.drop 1)).map (.cmp .eq)
  else (parseSemTok l).map (.cmp .eq)

/-- Fuel-driven first-occurrence deduplication (structural recursion so
that concrete values compute inside the kernel). -/
def dedupFirstAux : Nat → List Comparator → List Comparator
  | 0, _ => []
  | _, [] => []
  | fuel + 1, c :: cs => c :: dedupFirstAux fuel (cs.filter (· ≠ c))

/-- Deduplicate keeping the first occurrence (node's `rangeMap`: a `Map`
keyed on comparator value preserves first-insertion order). -/
def dedupFirst (l : List Comparator) : List Comparator :=
  dedupFirstAux (l.length + 1) l

/-- node `parseRange`'s final normalization: deduplicate by value, and if
more than one comparator remains and one of them is ANY, drop the ANYs. -/
def normalizeBranch (cs : List Comparator) : List Comparator :=
  if 1 < (dedupFirst cs).length then (dedupFirst cs).filter (fun c => c ≠ .any)
  else dedupFirst cs

/-- Parse every element, failing if any fails (the behavior of mapping a
throwing parser over an array). -/
def seqParse {α β : Type} (f : α → Option β) : List α → Option (List β)
  | [] => some []
  | x :: xs =>
    match f x with
    | none => none
    | some y => (seqParse f xs).map (y :: ·)

/-- Parse one `||`-branch of a range: trim, split on spaces, drop empty
tokens (node's `join(' ').split(/\s+/)` collapse), parse each comparator
token (the empty branch is the ANY comparator), then normalize. -/
def parseBranchTok (l : List Char) : Option (List Comparator) :=
  match (splitOnChar ' ' (trimChars l)).filter (· ≠ []) with
  | [] => some [Comparator.any]
  | ts => (seqParse parseCompTok ts).map normalizeBranch

/-- Parse a whole range string: split on `||`, parse each branch.
`none` models the `TypeError` node's `Range` constructor throws on
invalid input. -/
def parseRangeChars (l : List Char) : Option (List (List Comparator)) :=
  seqParse parseBranchTok (splitPipes l)

/-- Does `v` satisfy the parsed constraint set? (node `Range.test`: some
branch has all comparators satisfied.) -/
def testSet (s : List (List Comparator)) (v : Semver) : Bool :=
  s.any fun b => b.all fun c => c.test v

/-- One branch rendered as text: comparator values joined by one space,
trimmed (node `comps.join(' ').trim()`). -/
def branchChars (b : List Comparator) : List Char :=
  trimChars (joinSpace (b.map Comparator.chars))

/-- node `Range.format()`: branches joined by `||`, trimmed. -/
def formatSetChars (s : List (List Comparator)) : List Char :=
  trimChars (joinPipes (s.map branchChars))

/-- A node `Range` object, identified by the construction string it
holds in `.raw` (its parsed `set` is recomputed from `raw` on demand;
node's constructor derives `set` from `raw` deterministically, so `raw`
determines the object). -/
structure SRange where
  raw : String
deriving DecidableEq, Repr

/-- The parsed constraint set of a range object; `none` only for raw
strings node's constructor would have rejected, which therefore never
occur inside a live `Range` object. -/
def SRange.sets (r : SRange) : Option (List (List Comparator)) :=
  parseRangeChars r.raw.data

/-- The raw string is one node's `Range` constructor accepts. -/
def SRange.valid (r : SRange) : Bool :=
  r.sets.isSome

/-- node `Range.format()`.  The `none` branch is unreachable for ranges
the program constructs (their raws always parse). -/
def SRange.format (r : SRange) : String :=
  match r.sets with
  | some s => String.mk (formatSetChars s)
  | none => ""

/-- node `Range.test(v)` for a point version `v`. -/
def SRange.test (r : SRange) (v : Semver) : Bool :=
  match r.sets with
  | some s => testSet s v
  | none => false

/-- node `satisfies(version, rangeString)`: parse the string as a range
(`false` on throw), then test. -/
def satisfiesStr (v : Semver) (rangeStr : String) : Bool :=
  match parseRangeChars rangeStr.data with
  | some s => testSet s v
  | none => false

/-- node `higherGT`: the stricter of two lower bounds. -/
def higherGT (a : Option (Cop × Semver)) (b : Cop × Semver) : Cop × Semver :=
  match a with
  | none => b
  | some a =>
    match b.2.comp a.2 with
    | .gt => b
    | .lt => a
    | .eq => if b.1 = .gt ∧ a.1 = .ge then b else a

/-- node `lowerLT`: the stricter of two upper bounds. -/
def lowerLT (a : Option (Cop × Semver)) (b : Cop × Semver) : Cop × Semver :=
  match a with
  | none => b
  | some a =>
    match b.2.comp a.2 with
    | .lt => b
    | .gt => a
    | .eq => if b.1 = .lt ∧ a.1 = .le then b else a

/-- `higherGT g c` picked `c` strictly over `g` (node's
`higher === c && higher !== gt` on distinct objects). -/
def pickedHigher (g c : Cop × Semver) : Bool :=
  c.2.comp g.2 == .gt || (c.2.comp g.2 == .eq && c.1 == .gt && g.1 == .ge)

/-- `lowerLT l c` picked `c` strictly over `l`. -/
def pickedLower (l c : Cop × Semver) : Bool :=
  c.2.comp l.2 == .lt || (c.2.comp l.2 == .eq && c.1 == .lt && l.1 == .le)

/-- Accumulated classification of the subset-side comparators: strictest
lower bound, strictest upper bound, and the exact-match versions in
order of first appearance (node's `gt`, `lt`, `eqSet`). -/
structure SubCls where
  gtB : Option (Cop × Semver)
  ltB : Option (Cop × Semver)
  eqs : List Semver

/-- The classification loop of `simpleSubset`.  A mid-branch ANY
comparator cannot occur in a parsed range (normalization keeps ANY only
as a singleton branch, and singleton-ANY branches are replaced before
this loop), so it contributes nothing. -/
def classifySub (cs : List Comparator) : SubCls :=
  cs.foldl
    (fun acc c =>
      match c with
      | .cmp .gt v => { acc with gtB := some (higherGT acc.gtB (.gt, v)) }
      | .cmp .ge v => { acc with gtB := some (higherGT acc.gtB (.ge, v)) }
      | .cmp .lt v => { acc with ltB := some (lowerLT acc.ltB (.lt, v)) }
      | .cmp .le v => { acc with ltB := some (lowerLT acc.ltB (.le, v)) }
      | .cmp .eq v => { acc with eqs := acc.eqs ++ [v] }
      | .any => acc)
    ⟨none, none, []⟩

/-- Is this a `>`/`>=` comparator? -/
def Comparator.isGtType : Comparator → Bool
  | .cmp .gt _ => true
  | .cmp .ge _ => true
  | _ => false

/-- Is this a `<`/`<=` comparator? -/
def Comparator.isLtType : Comparator → Bool
  | .cmp .lt _ => true
  | .cmp .le _ => true
  | _ => false

/-- Its bound pair, for `>`/`>=`/`<`/`<=` comparators. -/
def Comparator.bound : Comparator → Option (Cop × Semver)
  | .cmp op v => some (op, v)
  | .any => none

/-- The superset-side loop of `simpleSubset` together with the two final
checks node performs after it (which need the accumulated
`hasDomGT`/`hasDomLT` flags).  Returns the early `false` exits and the
final verdict. -/
def subDomLoop (g l : Option (Cop × Semver)) (glc : Option Ordering) :
    List Comparator → Bool → Bool → Bool
  | [], hasGT, hasLT =>
    if g.isSome && hasLT && l.isNone && glc ≠ some .eq then false
    else if l.isSome && hasGT && g.isNone && glc ≠ some .eq then false
    else true
  | c :: rest, hasGT, hasLT =>
    let hasGT' := hasGT || c.isGtType
    let hasLT' := hasLT || c.isLtType
    let gtFail : Bool :=
      match g with
      | none => false
      | some gp =>
        if c.isGtType then
          match c.bound with
          | some cb => pickedHigher gp cb
          | none => false
        else
          gp.1 == .ge && !(c.test gp.2)
    let ltFail : Bool :=
      match l with
      | none => false
      | some lp =>
        if c.isLtType then
          match c.bound with
          | some cb => pickedLower lp cb
          | none => false
        else
          lp.1 == .le && !(c.test lp.2)
    let bareFail : Bool :=
      !(c.isGtType || c.isLtType) && (g.isSome || l.isSome) && glc ≠ some .eq
    if gtFail || ltFail || bareFail then false
    else subDomLoop g l glc rest hasGT' hasLT'

/-- node `simpleSubset(sub, dom)`: is the simple range `sub` entirely
contained in the simple range `dom`?  `none` models node's `null`
verdict ("sub is a null set"). -/
def simpleSubset (sub dom : List Comparator) : Option Bool :=
  if sub = dom then some true
  else if sub = [Comparator.any] ∧ dom = [Comparator.any] then some true
  else
    let sub' := if sub = [Comparator.any] then [Comparator.cmp .ge ⟨0, 0, 0⟩] else sub
    let dom' := if dom = [Comparator.any] then [Comparator.cmp .ge ⟨0, 0, 0⟩] else dom
    let cls := classifySub sub'
    if 1 < cls.eqs.length then none
    else
      let glc : Option Ordering :=
        match cls.gtB, cls.ltB with
        | some g, some l => some (g.2.comp l.2)
        | _, _ => none
      if glc = some .gt then none
      else if glc = some .eq ∧
          ¬(cls.gtB.any (fun g => g.1 == .ge) ∧ cls.ltB.any (fun l => l.1 == .le)) then none
      else
        match cls.eqs with
        | e :: _ =>
          if cls.gtB.any fun g => !(Comparator.cmp g.1 g.2).test e then none
          else if cls.ltB.any fun l => !(Comparator.cmp l.1 l.2).test e then none
          else if dom'.all fun c => c.test e then some true
          else some false
        | [] => some (subDomLoop cls.gtB cls.ltB glc dom' false false)

/-- The inner loop of node `subset`: try each superset branch until one
contains `s`; thread the `sawNonNull` flag.  Returns (found, saw). -/
def subsetInner (s : List Comparator) : List (List Comparator) → Bool → Bool × Bool
  | [], saw => (false, saw)
  | d :: ds, saw =>
    match simpleSubset s d with
    | some true => (true, true)
    | some false => subsetInner s ds true
    | none => subsetInner s ds saw

/-- The outer loop of node `subset` over the subset-side branches. -/
def subsetOuter (domS : List (List Comparator)) :
    List (List Comparator) → Bool → Bool
  | [], _ => true
  | s :: ss, saw =>
    match subsetInner s domS saw with
    | (true, saw') => subsetOuter domS ss saw'
    | (false, saw') => if saw' then false else subsetOuter domS ss saw'

/-- node `subset(sub, dom)` on parsed sets. -/
def subsetSets (subS domS : List (List Comparator)) : Bool :=
  subsetOuter domS subS false

/-- node `subset` on `Range` objects (always called on valid ranges; the
`none` branches are unreachable there). -/
def subsetR (l r : SRange) : Bool :=
  match l.sets, r.sets with
  | some a, some b => subsetSets a b
  | _, _ => false

/-- The `SemVer | Range` union held by `Version.version`. -/
inductive SVersion
  | point (v : Semver)
  | range (r : SRange)
deriving DecidableEq, Repr

/-- `Version.extend(extendingVersion)`: the reassigned `this.version`. -/
def SVersion.extend : SVersion → SVersion → SVersion
  | .point l, .point r => .range ⟨l.str ++ " || " ++ r.str⟩
  | .range l, .point r =>
    if l.test r then .range ⟨l.format⟩
    else .range ⟨l.format ++ " || " ++ r.str⟩
  | .point l, .range r =>
    if !(r.test l) then .range ⟨l.str ++ " || " ++ r.format⟩
    else .range ⟨r.format⟩
  | .range l, .range r =>
    if subsetR l r then .range ⟨r.format⟩
    else if subsetR r l then .range ⟨l.format⟩
    else .range ⟨l.format ++ " " ++ r.format⟩

/-- `Version.toJSON()` serializes `version` to `version.raw`. -/
def SVersion.rawStr : SVersion → String
  | .point v => v.str
  | .range r => r.raw

/-- `filterAgainstVersion(targetVersion)(item)` (src/api.ts lines
15–23): a `Range` version is `test`ed, a `SemVer` version is checked
with `satisfies(targetVersion, item.version.raw)` (its raw string
re-parsed as a range). -/
def filterAgainstVersion (targetVersion : Semver) (version : SVersion) : Bool :=
  match version with
  | .range r => r.test targetVersion
  | .point v => satisfiesStr targetVersion v.str

/-- `API.DEFAULT_NAMESPACE`. -/
def DEFAULT_NAMESPACE : String := "WoWAPI"

/-- The zod `variableSignatureSchema` record: exactly `name`, `type`,
`nilable`.  Every signature reaching the merge comes from `API.load`,
whose zod parse strips any other key, so `Object.entries` in
`identicalSignature` enumerates exactly these three fields. -/
structure VariableSignature where
  name : String
  type : String
  nilable : Bool
deriving DecidableEq, Repr

/-- `ListItemDescription` (`{ name, description }`). -/
structure ListItemDescription where
  name : String
  description : String
deriving DecidableEq, Repr

/-- `identicalSignature(s)(ss)` (src/api.ts lines 25–34):
`Object.entries(s).every(([key, value]) => key in ss && ss[key] === value)`
over the three schema fields. -/
def identicalSignature (s ss : VariableSignature) : Bool :=
  s.name == ss.name && s.type == ss.type && s.nilable == ss.nilable

/-- `identicalArrays(left, right, predicate)` (src/utils.ts lines
49–51): equal lengths and every left element has a predicate-matching
right element. -/
def identicalArrays {T : Type} (left right : List T) (pred : T → T → Bool) : Bool :=
  left.length == right.length && left.all fun f => right.any (pred f)

/-- JavaScript `a || d` defaulting for an optional string property
(absent and empty are both falsy). -/
def jsOr (o : Option String) (d : String) : String :=
  match o with
  | none => d
  | some s => if s = "" then d else s

/-- `APIFunction` instance fields. -/
structure APIFunction where
  name : String
  description : String
  parameters : List VariableSignature
  returns : List VariableSignature
  events : List ListItemDescription
  ns : String
  version : SVersion
deriving DecidableEq, Repr

/-- `APIFunctionProps`. -/
structure APIFunctionProps where
  name : String
  description : Option String
  ns : Option String
  parameters : List VariableSignature
  returns : List VariableSignature
  events : Option (List ListItemDescription)
  version : SVersion

/-- The `APIFunction` constructor (defaults: `description || ''`,
`events || []`, `ns || API.DEFAULT_NAMESPACE`; note a present array is
truthy in JS even when empty). -/
def APIFunction.ofProps (p : APIFunctionProps) : APIFunction :=
  { name := p.name
    description := p.description.getD ""
    parameters := p.parameters
    returns := p.returns
    events := p.events.getD []
    ns := jsOr p.ns DEFAULT_NAMESPACE
    version := p.version }

/-- `APIFunction.identicalTo(func)` (src/api.ts lines 118–127). -/
def APIFunction.identicalTo (a b : APIFunction) : Bool :=
  a.name == b.name &&
    identicalArrays a.parameters b.parameters identicalSignature &&
    identicalArrays a.returns b.returns identicalSignature &&
    a.ns == b.ns

/-- `APITable` instance fields. -/
structure APITable where
  name : String
  description : String
  type : String
  fields : List VariableSignature
  parameters : List VariableSignature
  values : List VariableSignature
  ns : String
  version : SVersion
deriving DecidableEq, Repr

/-- `APITableProps`. -/
structure APITableProps where
  name : String
  description : Option String
  type : Option String
  ns : Option String
  fields : List VariableSignature
  parameters : Option (List VariableSignature)
  values : Option (List VariableSignature)
  version : SVersion

/-- The `APITable` constructor. -/
def APITable.ofProps (p : APITableProps) : APITable :=
  { name := p.name
    description := p.description.getD ""
    type := p.type.getD ""
    fields := p.fields
    parameters := p.parameters.getD []
    values := p.values.getD []
    ns := jsOr p.ns DEFAULT_NAMESPACE
    version := p.version }

/-- `APITable.identicalTo(t)` (src/api.ts lines 160–168). -/
def APITable.identicalTo (a b : APITable) : Bool :=
  a.name == b.name &&
    identicalArrays a.fields b.fields identicalSignature &&
    a.ns == b.ns

/-- `APIEvent` instance fields. -/
structure APIEvent where
  name : String
  description : String
  literalName : String
  payload : List VariableSignature
  ns : String
  version : SVersion
deriving DecidableEq, Repr

/-- `APIEventProps`. -/
structure APIEventProps where
  name : String
  description : Option String
  literalName : String
  ns : Option String
  payload : List VariableSignature
  version : SVersion

/-- The `APIEvent` constructor. -/
def APIEvent.ofProps (p : APIEventProps) : APIEvent :=
  { name := p.name
    description := p.description.getD ""
    literalName := p.literalName
    payload := p.payload
    ns := jsOr p.ns DEFAULT_NAMESPACE
    version := p.version }

/-- `APIEvent.identicalTo(t)` (src/api.ts lines 195–204). -/
def APIEvent.identicalTo (a b : APIEvent) : Bool :=
  a.name == b.name &&
    a.literalName == b.literalName &&
    identicalArrays a.payload b.payload identicalSignature &&
    a.ns == b.ns

/-- The `API` aggregate: three ordered entity lists. -/
structure API where
  functions : List APIFunction
  tables : List APITable
  events : List APIEvent
deriving DecidableEq, Repr

/-- Replace the first element satisfying `p` by its `g`-image (models
mutating the object `Array.prototype.find` returned, in place). -/
def updateFirst {T : Type} (p : T → Bool) (g : T → T) : List T → List T
  | [] => []
  | x :: xs => if p x then g x :: xs else x :: updateFirst p g xs

/-- `API.combineItems(items, combiningItems)` (src/api.ts lines
236–252): fold the right-hand entities into the accumulated list; on a
first-by-name match that is structurally identical, extend that entity's
version in place, otherwise append. -/
def combineItems {T : Type} (nameOf : T → String) (identTo : T → T → Bool)
    (versionOf : T → SVersion) (withVersion : T → SVersion → T)
    (items combining : List T) : List T :=
  combining.foldl
    (fun acc c =>
      match acc.find? (fun f => nameOf c == nameOf f) with
      | some f =>
        if identTo f c then
          updateFirst (fun f => nameOf c == nameOf f)
            (fun f => withVersion f ((versionOf f).extend (versionOf c))) acc
        else acc ++ [c]
      | none => acc ++ [c])
    items

/-- `combineItems` instantiated at functions. -/
def combineFunctions : List APIFunction → List APIFunction → List APIFunction :=
  combineItems (·.name) APIFunction.identicalTo (·.version)
    (fun f v => { f with version := v })

/-- `combineItems` instantiated at tables. -/
def combineTables : List APITable → List APITable → List APITable :=
  combineItems (·.name) APITable.identicalTo (·.version)
    (fun t v => { t with version := v })

/-- `combineItems` instantiated at events. -/
def combineEvents : List APIEvent → List APIEvent → List APIEvent :=
  combineItems (·.name) APIEvent.identicalTo (·.version)
    (fun e v => { e with version := v })

/-- `API.combine(api)` (src/api.ts lines 255–275): copy the left
collection, then fold in each right entity list per kind. -/
def API.combine (l r : API) : API :=
  { functions := combineFunctions l.functions r.functions
    tables := combineTables l.tables r.tables
    events := combineEvents l.events r.events }

/-- `API.filterForVersion(version)` → `new FilteredAPI(this, version)`
(src/api.ts lines 294–304): keep the entities whose version passes
`filterAgainstVersion`. -/
def API.filterForVersion (api : API) (version : Semver) : API :=
  { functions := api.functions.filter fun f => filterAgainstVersion version f.version
    tables := api.tables.filter fun t => filterAgainstVersion version t.version
    events := api.events.filter fun e => filterAgainstVersion version e.version }

/-- The JSON object written for one function (all own fields of
`APIFunction`, with `version` replaced by `version.raw` by
`Version.toJSON`). -/
structure FunctionJSON where
  name : String
  description : String
  parameters : List VariableSignature
  returns : List VariableSignature
  events : List ListItemDescription
  ns : String
  version : String
deriving DecidableEq, Repr

/-- The JSON object written for one table. -/
structure TableJSON where
  name : String
  description : String
  type : String
  fields : List VariableSignature
  parameters : List VariableSignature
  values : List VariableSignature
  ns : String
  version : String
deriving DecidableEq, Repr

/-- The JSON object written for one event. -/
structure EventJSON where
  name : String
  description : String
  literalName : String
  payload : List VariableSignature
  ns : String
  version : String
deriving DecidableEq, Repr

/-- The serialized collection. -/
structure APIJSON where
  functions : List FunctionJSON
  tables : List TableJSON
  events : List EventJSON
deriving DecidableEq, Repr

/-- `Version.toJSON` applied to an `APIFunction`. -/
def APIFunction.toJSON (f : APIFunction) : FunctionJSON :=
  ⟨f.name, f.description, f.parameters, f.returns, f.events, f.ns, f.version.rawStr⟩

/-- `Version.toJSON` applied to an `APITable`. -/
def APITable.toJSON (t : APITable) : TableJSON :=
  ⟨t.name, t.description, t.type, t.fields, t.parameters, t.values, t.ns, t.version.rawStr⟩

/-- `Version.toJSON` applied to an `APIEvent`. -/
def APIEvent.toJSON (e : APIEvent) : EventJSON :=
  ⟨e.name, e.description, e.literalName, e.payload, e.ns, e.version.rawStr⟩

/-- `API.serialize()` (modulo the invertible JSON text encoding). -/
def API.serialize (api : API) : APIJSON :=
  ⟨api.functions.map APIFunction.toJSON, api.tables.map APITable.toJSON,
    api.events.map APIEvent.toJSON⟩

/-- `versionedSchema`'s transform (src/types.ts lines 86–94): a stored
version string becomes a `SemVer` when `valid(str)` accepts it,
otherwise a `Range`; an invalid range string throws (`none`). -/
def parseVersionStr (s : String) : Option SVersion :=
  if validSemTok s.data then (parseSemTok s.data).map .point
  else if (parseRangeChars s.data).isSome then some (.range ⟨s⟩)
  else none

/-- zod `functionSchema` + `new APIFunction(f)`: all function keys are
in the schema, so they survive. -/
def loadFunction (j : FunctionJSON) : Option APIFunction :=
  (parseVersionStr j.version).map fun v =>
    APIFunction.ofProps
      ⟨j.name, some j.description, some j.ns, j.parameters, j.returns,
        some j.events, v⟩

/-- zod `tableSchema` + `new APITable(t)`: the schema keeps only `name`,
`fields`, `version`, `ns`; `description`, `type`, `parameters`, `values`
are stripped and re-defaulted by the constructor. -/
def loadTable (j : TableJSON) : Option APITable :=
  (parseVersionStr j.version).map fun v =>
    APITable.ofProps ⟨j.name, none, none, some j.ns, j.fields, none, none, v⟩

/-- zod `eventSchema` + `new APIEvent(e)`: the schema keeps `name`,
`literalName`, `payload`, `version`, `ns`; `description` is stripped. -/
def loadEvent (j : EventJSON) : Option APIEvent :=
  (parseVersionStr j.version).map fun v =>
    APIEvent.ofProps ⟨j.name, none, j.literalName, some j.ns, j.payload, v⟩

/-- `API.load(content)` (src/api.ts lines 281–291); `none` models the
exception thrown when a version string fails to parse. -/
def API.load (j : APIJSON) : Option API := do
  let fs ← seqParse loadFunction j.functions
  let ts ← seqParse loadTable j.tables
  let es ← seqParse loadEvent j.events
  pure ⟨fs, ts, es⟩

/-- `APIBuilder.merge()`: `null` (here `none`) when no collection was
added, otherwise `this.apis.reduce((combinedAPI, api) =>
combinedAPI.combine(api))` — the left fold seeded with the first
collection. -/
def APIBuilder.merge (apis : List API) : Option API :=
  match apis with
  | [] => none
  | a :: rest => some (rest.foldl API.combine a)

/-- A branch as node's parser can actually produce it: either the lone
ANY comparator, or a nonempty duplicate-free list of non-ANY
comparators. -/
def wfBranch (b : List Comparator) : Prop :=
  b = [Comparator.any] ∨ (b ≠ [] ∧ b.Nodup ∧ ∀ c ∈ b, c ≠ Comparator.any)

/-- A constraint set as node's parser can produce it. -/
def wfSet (S : List (List Comparator)) : Prop :=
  S ≠ [] ∧ ∀ b ∈ S, wfBranch b

/-- Append a trailing space to the last element. -/
def padLast : List (List Char) → List (List Char)
  | [] => []
  | [q] => [q ++ [' ']]
  | q :: qs => q :: padLast qs

/-- A version value whose serialized raw survives the point-first,
range-fallback reconstruction of `versionedSchema` with its kind intact:
points always do; a range must have a parsable raw that is not itself a
valid point version. -/
def versionRoundTrips (v : SVersion) : Prop :=
  match v with
  | .point _ => True
  | .range r => r.valid = true ∧ validSemTok r.raw.data = false

instance : DecidablePred versionRoundTrips := fun v =>
  match v with
  | .point _ => isTrue trivial
  | .range r =>
    inferInstanceAs (Decidable (r.valid = true ∧ validSemTok r.raw.data = false))

/-- A nilable string parameter named `foo`. -/
def sigFoo : VariableSignature := ⟨"foo", "string", true⟩

/-- A parameterless scenario function at the given version. -/
def scFun (nm : String) (v : SVersion) : APIFunction :=
  APIFunction.ofProps ⟨nm, none, none, [], [], none, v⟩

/-- Scenario A/B left collection: `FooBar@1.0.0`, no parameters. -/
def scenarioL : API := ⟨[scFun "FooBar" (.point ⟨1, 0, 0⟩)], [], []⟩

/-- Scenario A right collection: `FooBar@2.0.0` with one nilable string
parameter `foo`. -/
def scenarioAR : API :=
  ⟨[APIFunction.ofProps ⟨"FooBar", none, none, [sigFoo], [], none,
    .point ⟨2, 0, 0⟩⟩], [], []⟩

/-- Scenario B right collection: `FooBar@2.0.0`, structurally identical
to the left entry. -/
def scenarioBR : API := ⟨[scFun "FooBar" (.point ⟨2, 0, 0⟩)], [], []⟩

/-- Scenario C collection for 1.0.0. -/
def colC1 : API :=
  ⟨[scFun "Foo" (.point ⟨1, 0, 0⟩), scFun "Bar" (.range ⟨">1.0.0"⟩),
    scFun "Baz" (.range ⟨"<1.0.0"⟩)], [], []⟩

/-- Scenario C collection for 2.0.0. -/
def colC2 : API :=
  ⟨[scFun "Foo" (.point ⟨2, 0, 0⟩), scFun "Bar" (.range ⟨">2.0.0"⟩),
    scFun "Baz" (.range ⟨"<2.0.0"⟩)], [], []⟩

/-- Scenario C collection for 3.0.0. -/
def colC3 : API :=
  ⟨[scFun "Foo" (.point ⟨3, 0, 0⟩), scFun "Bar" (.range ⟨">3.0.0"⟩),
    scFun "Baz" (.range ⟨"<3.0.0"⟩)], [], []⟩

/-- The serialized text a version formats to (`format()` for ranges, the
canonical version string for points). -/
def versionLabel (v : SVersion) : String :=
  match v with
  | .range r => r.format
  | .point v => v.str

/-- Two distinct signatures for the duplicate-list symmetry example. -/
def sigA : VariableSignature := ⟨"a", "string", false⟩

/-- See `sigA`. -/
def sigB : VariableSignature := ⟨"b", "string", false⟩

/-- Function with duplicated parameter list `[s, s]`. -/
def funDupA : APIFunction :=
  APIFunction.ofProps ⟨"F", none, none, [sigA, sigA], [], none, .point ⟨1, 0, 0⟩⟩

/-- Function with parameter list `[s, t]`. -/
def funDupB : APIFunction :=
  APIFunction.ofProps ⟨"F", none, none, [sigA, sigB], [], none, .point ⟨1, 0, 0⟩⟩

/-- A table whose description/type/parameters/values are populated — the
persistence schema drops all four. -/
def cexTable : APITable :=
  APITable.ofProps ⟨"T", some "docs", some "Enum", none, [sigA],
    some [sigA], some [sigB], .point ⟨1, 0, 0⟩⟩

/-- Collection exercising the table field loss. -/
def cexAPI : API := ⟨[], [cexTable], []⟩

/-- A function whose namespace is the empty string (falsy in JS, so the
constructor re-defaults it on load). -/
def cexNsFun : APIFunction :=
  { name := "G", description := "", parameters := [], returns := [],
    events := [], ns := "", version := .point ⟨1, 0, 0⟩ }

/-- A function whose version is the range `1.0.0`, whose raw string is
also a valid point version (so load reconstructs a point). -/
def cexRangeFun : APIFunction :=
  { name := "H", description := "", parameters := [], returns := [],
    events := [], ns := "WoWAPI", version := .range ⟨"1.0.0"⟩ }

theorem natCharsAux_congr : ∀ f₁ f₂ n, n < f₁ → n < f₂ →
    natCharsAux f₁ n = natCharsAux f₂ n := by
  intro f₁
  induction f₁ with
  | zero => intro f₂ n h; omega
  | succ f ih =>
    intro f₂ n h₁ h₂
    rcases f₂ with _ | f₂'
    · omega
    · rw [natCharsAux, natCharsAux]
      by_cases hn : n < 10
      · rw [if_pos hn, if_pos hn]
      · rw [if_neg hn, if_neg hn,
          ih f₂' (n / 10) (by omega) (by omega)]

theorem natChars_eq (n : Nat) :
    natChars n = if n < 10 then [digitChar n]
      else natChars (n / 10) ++ [digitChar (n % 10)] := by
  unfold natChars
  rw [natCharsAux]
  by_cases hn : n < 10
  · rw [if_pos hn, if_pos hn]
  · rw [if_neg hn, if_neg hn,
      natCharsAux_congr n (n / 10 + 1) (n / 10) (by omega) (by omega)]

theorem digitVal_digitChar {d : Nat} (h : d < 10) : digitVal (digitChar d) = d := by
  interval_cases d <;> rfl

theorem isDigit_digitChar {d : Nat} (h : d < 10) : (digitChar d).isDigit = true := by
  interval_cases d <;> rfl

theorem natChars_ne_nil (n : Nat) : natChars n ≠ [] := by
  rw [natChars_eq]
  split
  · simp
  · simp

theorem natChars_all_digit (n : Nat) : (natChars n).all Char.isDigit = true := by
  induction n using Nat.strong_induction_on with
  | _ n ih =>
    rw [natChars_eq]
    split
    · next h => simp [isDigit_digitChar h]
    · next h =>
      rw [List.all_append]
      have h10 : n / 10 < n := Nat.div_lt_self (by omega) (by omega)
      simp [ih _ h10, isDigit_digitChar (Nat.mod_lt _ (by omega))]

theorem digitChar_eq_zero_iff {d : Nat} (h : d < 10) : digitChar d = '0' ↔ d = 0 := by
  interval_cases d <;> simp [digitChar]

theorem natChars_head_of_pos {n : Nat} (h : n ≠ 0) :
    (natChars n).head? ≠ some '0' := by
  induction n using Nat.strong_induction_on with
  | _ n ih =>
    rw [natChars_eq]
    split
    · next hlt =>
      simp only [List.head?_cons, ne_eq, Option.some.injEq]
      intro hc
      exact h ((digitChar_eq_zero_iff hlt).mp hc)
    · next hlt =>
      have hne := natChars_ne_nil (n / 10)
      have h10 : n / 10 < n := Nat.div_lt_self (by omega) (by omega)
      have hpos : n / 10 ≠ 0 := by
        intro hz
        have := Nat.div_add_mod n 10
        have hm : n % 10 < 10 := Nat.mod_lt _ (by omega)
        omega
      have := ih _ h10 hpos
      cases hx : natChars (n / 10) with
      | nil => exact absurd hx hne
      | cons a as => simpa [hx] using (by simpa [hx] using this)

theorem wellFormedNum_natChars (n : Nat) : wellFormedNum (natChars n) = true := by
  unfold wellFormedNum
  have hd := natChars_all_digit n
  have hne := natChars_ne_nil n
  by_cases hz : n = 0
  · subst hz
    rw [natChars_eq]
    rfl
  · have hh := natChars_head_of_pos hz
    cases hx : natChars n with
    | nil => exact absurd hx hne
    | cons a as =>
      rw [hx] at hd hh
      simp only [List.head?_cons, ne_eq, Option.some.injEq] at hh
      simp [hd, hh]

theorem foldl_natChars (n : Nat) :
    ∀ a : Nat, (natChars n).foldl (fun a c => 10 * a + digitVal c) a =
      a * 10 ^ (natChars n).length + n := by
  induction n using Nat.strong_induction_on with
  | _ n ih =>
    intro a
    rw [natChars_eq]
    split
    · next h => simp [digitVal_digitChar h]; ring
    · next h =>
      have h10 : n / 10 < n := Nat.div_lt_self (by omega) (by omega)
      rw [List.foldl_append, ih _ h10 a]
      have hm : n % 10 < 10 := Nat.mod_lt _ (by omega)
      simp only [List.foldl_cons, List.foldl_nil, List.length_append,
        List.length_cons, List.length_nil]
      rw [digitVal_digitChar hm]
      have : 10 * (a * 10 ^ (natChars (n / 10)).length + n / 10) + n % 10 =
          a * (10 ^ (natChars (n / 10)).length * 10) + (10 * (n / 10) + n % 10) := by ring
      rw [this, Nat.div_add_mod]
      rw [pow_succ]

theorem charsToNat_natChars (n : Nat) : charsToNat (natChars n) = n := by
  unfold charsToNat
  rw [foldl_natChars n 0]
  simp

theorem parseNum_natChars (n : Nat) : parseNum (natChars n) = some n := by
  unfold parseNum
  rw [wellFormedNum_natChars]
  simp [charsToNat_natChars]

theorem Semver.comp_eq_iff (a b : Semver) : a.comp b = .eq ↔ a = b := by
  unfold Semver.comp
  rcases a with ⟨a1, a2, a3⟩
  rcases b with ⟨b1, b2, b3⟩
  simp only [Semver.mk.injEq]
  rcases h1 : compare a1 b1 <;> rcases h2 : compare a2 b2 <;>
    rcases h3 : compare a3 b3 <;>
      simp_all [Nat.compare_eq_eq, Nat.compare_eq_lt, Nat.compare_eq_gt] <;> omega

theorem Semver.comp_self (a : Semver) : a.comp a = .eq :=
  (Semver.comp_eq_iff a a).mpr rfl

/-! ## Character-list splitting

JavaScript `String.prototype.split` with a one-character separator, and
the two-character separator `'||'` used by node-semver's range parser
(non-overlapping, leftmost-first, exactly like JS `split('||')`). -/

theorem splitOnChar_ne_nil (sep : Char) (l : List Char) : splitOnChar sep l ≠ [] := by
  induction l with
  | nil => simp [splitOnChar]
  | cons c rest ih =>
    rw [splitOnChar]
    split
    · simp
    · rcases h : splitOnChar sep rest with _ | ⟨b, bs⟩
      · simp
      · simp

theorem splitOnChar_not_mem {sep : Char} {l : List Char} (h : sep ∉ l) :
    splitOnChar sep l = [l] := by
  induction l with
  | nil => rfl
  | cons c rest ih =>
    rw [splitOnChar]
    rw [List.mem_cons] at h
    push_neg at h
    rw [if_neg (fun hc => h.1 hc.symm), ih h.2]

theorem splitOnChar_append {sep : Char} {xs : List Char} (h : sep ∉ xs) (ys : List Char) :
    splitOnChar sep (xs ++ sep :: ys) = xs :: splitOnChar sep ys := by
  induction xs with
  | nil => simp [splitOnChar]
  | cons c rest ih =>
    rw [List.mem_cons] at h
    push_neg at h
    rw [List.cons_append, splitOnChar, if_neg (fun hc => h.1 hc.symm), ih h.2]

theorem splitPipes_ne_nil (l : List Char) : splitPipes l ≠ [] := by
  rcases l with _ | ⟨c, _ | ⟨d, rest⟩⟩
  · simp [splitPipes]
  · simp [splitPipes]
  · rw [splitPipes]
    split
    · simp
    · split <;> simp

theorem splitPipes_not_mem {l : List Char} (h : '|' ∉ l) : splitPipes l = [l] := by
  induction l with
  | nil => rfl
  | cons c rest ih =>
    rw [List.mem_cons] at h
    push_neg at h
    rcases rest with _ | ⟨d, rest'⟩
    · rfl
    · rw [splitPipes, if_neg (fun hc => h.1 hc.1.symm), ih h.2]

theorem splitPipes_cons₂ (c d : Char) (rest : List Char) :
    splitPipes (c :: d :: rest) =
      if c = '|' ∧ d = '|' then [] :: splitPipes rest
      else
        match splitPipes (d :: rest) with
        | [] => [[c]]
        | b :: bs => (c :: b) :: bs := by
  rw [splitPipes.eq_def]

theorem splitPipes_append {xs : List Char} (h : '|' ∉ xs) (ys : List Char) :
    splitPipes (xs ++ '|' :: '|' :: ys) = xs :: splitPipes ys := by
  induction xs with
  | nil => rw [List.nil_append, splitPipes_cons₂, if_pos ⟨rfl, rfl⟩]
  | cons c xs' ih =>
    rw [List.mem_cons] at h
    push_neg at h
    rcases xs' with _ | ⟨e, xs''⟩
    · rw [List.cons_append, List.nil_append, splitPipes_cons₂,
        if_neg (fun hc => h.1 hc.1.symm), splitPipes_cons₂, if_pos ⟨rfl, rfl⟩]
    · simp only [List.cons_append] at ih ⊢
      rw [splitPipes_cons₂, if_neg (fun hc => h.1 hc.1.symm), ih h.2]

theorem joinSpace_eq (b : List Char) (bs : List (List Char)) (hbs : bs ≠ []) :
    joinSpace (b :: bs) = b ++ ' ' :: joinSpace bs := by
  rcases bs with _ | ⟨b', bs'⟩
  · exact absurd rfl hbs
  · rfl

theorem joinPipes_eq (b : List Char) (bs : List (List Char)) (hbs : bs ≠ []) :
    joinPipes (b :: bs) = b ++ '|' :: '|' :: joinPipes bs := by
  rcases bs with _ | ⟨b', bs'⟩
  · exact absurd rfl hbs
  · rfl

theorem splitOnChar_joinSpace {parts : List (List Char)}
    (hne : parts ≠ []) (hfree : ∀ p ∈ parts, ' ' ∉ p) :
    splitOnChar ' ' (joinSpace parts) = parts := by
  induction parts with
  | nil => exact absurd rfl hne
  | cons b bs ih =>
    rcases bs with _ | ⟨b', bs'⟩
    · exact splitOnChar_not_mem (hfree b (by simp))
    · rw [joinSpace_eq b _ (by simp), splitOnChar_append (hfree b (by simp)),
        ih (by simp) (fun p hp => hfree p (by simp [hp]))]

theorem splitPipes_joinPipes {parts : List (List Char)}
    (hne : parts ≠ []) (hfree : ∀ p ∈ parts, '|' ∉ p) :
    splitPipes (joinPipes parts) = parts := by
  induction parts with
  | nil => exact absurd rfl hne
  | cons b bs ih =>
    rcases bs with _ | ⟨b', bs'⟩
    · exact splitPipes_not_mem (hfree b (by simp))
    · rw [joinPipes_eq b _ (by simp), splitPipes_append (hfree b (by simp)),
        ih (by simp) (fun p hp => hfree p (by simp [hp]))]

/-! ## Comparators and ranges (node-semver `Comparator` / `Range`)

A comparator is either the ANY comparator (node stores it as the empty
value, produced by `''` or `*`) or an operator applied to a point
version.  node normalizes the `=` operator to the empty operator, so a
bare version token and `=1.2.3` both yield the `eq` comparator. -/

theorem dedupFirstAux_congr : ∀ f₁ f₂ (l : List Comparator), l.length < f₁ →
    l.length < f₂ → dedupFirstAux f₁ l = dedupFirstAux f₂ l := by
  intro f₁
  induction f₁ with
  | zero => intro f₂ l h; omega
  | succ f ih =>
    intro f₂ l h₁ h₂
    rcases f₂ with _ | f₂'
    · omega
    · rcases l with _ | ⟨c, cs⟩
      · rfl
      · rw [dedupFirstAux, dedupFirstAux]
        have hlen := List.length_filter_le (· ≠ c) cs
        simp only [List.length_cons] at h₁ h₂
        rw [ih f₂' _ (by omega) (by omega)]

theorem dedupFirst_nil : dedupFirst [] = [] := rfl

theorem dedupFirst_cons (c : Comparator) (cs : List Comparator) :
    dedupFirst (c :: cs) = c :: dedupFirst (cs.filter (· ≠ c)) := by
  unfold dedupFirst
  rw [dedupFirstAux]
  have hlen := List.length_filter_le (· ≠ c) cs
  rw [dedupFirstAux_congr (c :: cs).length ((cs.filter (· ≠ c)).length + 1) _
    (by rw [List.length_cons]; exact Nat.lt_succ_of_le hlen) (Nat.lt_succ_self _)]

/-! ## node-semver `subset`

Transcription of `semver/ranges/subset.js` for prerelease-free
comparators.  The prerelease-only blocks (`needDomLTPre`/`needDomGTPre`)
are omitted because no prerelease version occurs in this program's
grammar, and object-identity shortcuts (`sub === dom`) are rendered as
value equality, which coincides on ranges produced by node's memoized
parser. -/

/-! ## `Version` (src/api.ts)

`Version.version : SemVer | Range`, embedded as a two-variant union.
`extend` is the four-case `ts-pattern` match of `Version.extend`
(src/api.ts lines 45–78); each branch builds a fresh `Range` from the
exact template string the source interpolates. -/

/-! ## Entities (src/api.ts, src/types.ts) -/

/-! ## `API` collections, combine, filter (src/api.ts lines 207–304) -/

/-! ## Persistence (src/api.ts `serialize`/`load`, src/types.ts zod
schemas)

`serialize` is `JSON.stringify(this)`; `load` is
`apiSchema.parse(JSON.parse(content))` followed by the entity
constructors.  `JSON.stringify`/`JSON.parse` are mutually inverse on
these object trees, so the embedding works at the level of the JSON
object model; the interesting behavior — which keys each zod schema
keeps, and the point-first/range-fallback version transform of
`versionedSchema` — is modelled exactly. -/

/-! ## `APIBuilder` (src/api.ts lines 306–324) -/

/-! ## Character facts about rendered tokens -/

theorem not_special_of_digit {c : Char} (h : c.isDigit = true) :
    c ≠ '.' ∧ c ≠ ' ' ∧ c ≠ '|' ∧ c ≠ '<' ∧ c ≠ '>' ∧ c ≠ '=' ∧ c ≠ '*' := by
  refine ⟨?_, ?_, ?_, ?_, ?_, ?_, ?_⟩ <;> (rintro rfl; simp [Char.isDigit] at h)

theorem natChars_mem_digit {n : Nat} {c : Char} (h : c ∈ natChars n) :
    c.isDigit = true := by
  have := natChars_all_digit n
  rw [List.all_eq_true] at this
  exact this c h

theorem semChars_mem {v : Semver} {c : Char} (h : c ∈ v.chars) :
    c.isDigit = true ∨ c = '.' := by
  unfold Semver.chars at h
  rw [List.mem_append] at h
  rcases h with h | h
  · exact .inl (natChars_mem_digit h)
  · rw [List.mem_cons] at h
    rcases h with rfl | h
    · exact .inr rfl
    · rw [List.mem_append] at h
      rcases h with h | h
      · exact .inl (natChars_mem_digit h)
      · rw [List.mem_cons] at h
        rcases h with rfl | h
        · exact .inr rfl
        · exact .inl (natChars_mem_digit h)

theorem semChars_not_space {v : Semver} : ' ' ∉ v.chars := by
  intro h
  rcases semChars_mem h with h | h
  · exact (not_special_of_digit h).2.1 rfl
  · exact absurd h (by decide)

theorem semChars_not_pipe {v : Semver} : '|' ∉ v.chars := by
  intro h
  rcases semChars_mem h with h | h
  · exact (not_special_of_digit h).2.2.1 rfl
  · exact absurd h (by decide)

theorem semChars_ne_nil (v : Semver) : v.chars ≠ [] := by
  unfold Semver.chars
  rcases h : natChars v.major with _ | ⟨c, cs⟩
  · exact absurd h (natChars_ne_nil _)
  · simp

theorem semChars_head_digit (v : Semver) :
    ∃ c cs, v.chars = c :: cs ∧ c.isDigit = true := by
  unfold Semver.chars
  rcases h : natChars v.major with _ | ⟨c, cs⟩
  · exact absurd h (natChars_ne_nil _)
  · refine ⟨c, _, rfl, natChars_mem_digit (n := v.major) ?_⟩
    rw [h]
    exact List.mem_cons_self _ _

theorem compChars_mem {c : Comparator} {x : Char} (h : x ∈ c.chars) :
    x.isDigit = true ∨ x = '.' ∨ x = '<' ∨ x = '>' ∨ x = '=' := by
  rcases c with _ | ⟨op, v⟩
  · simp [Comparator.chars] at h
  · simp only [Comparator.chars, List.mem_append] at h
    rcases h with h | h
    · rcases op <;> simp [Cop.chars] at h <;> tauto
    · rcases semChars_mem h with h | h
      · exact .inl h
      · exact .inr (.inl h)

theorem compChars_not_space {c : Comparator} : ' ' ∉ c.chars := by
  intro h
  rcases compChars_mem h with h | h | h | h | h
  · exact (not_special_of_digit h).2.1 rfl
  all_goals exact absurd h (by decide)

theorem compChars_not_pipe {c : Comparator} : '|' ∉ c.chars := by
  intro h
  rcases compChars_mem h with h | h | h | h | h
  · exact (not_special_of_digit h).2.2.1 rfl
  all_goals exact absurd h (by decide)

/-! ## Trim lemmas -/

theorem trimChars_nil : trimChars [] = [] := rfl

theorem trimChars_cons_space (l : List Char) :
    trimChars (' ' :: l) = trimChars l := by
  simp [trimChars, List.dropWhile]

theorem trimChars_append_space (l : List Char) :
    trimChars (l ++ [' ']) = trimChars l := by
  induction l with
  | nil => rfl
  | cons c l' ih =>
    by_cases hc : c = ' '
    · subst hc
      rw [List.cons_append, trimChars_cons_space, trimChars_cons_space, ih]
    · unfold trimChars
      rw [List.cons_append, List.dropWhile_cons, if_neg (by simpa using hc),
        List.dropWhile_cons, if_neg (by simpa using hc)]
      simp only [List.reverse_cons, List.append_assoc, List.nil_append]
      rw [show l' ++ [' '] = l' ++ [' '] from rfl]
      simp only [List.reverse_append, List.reverse_cons, List.reverse_nil,
        List.nil_append, List.cons_append]
      rw [List.dropWhile_cons, if_pos (by simp)]

theorem dot_not_mem_natChars (n : Nat) : '.' ∉ natChars n :=
  fun h => (not_special_of_digit (natChars_mem_digit h)).1 rfl

theorem parseSemTok_chars (v : Semver) : parseSemTok v.chars = some v := by
  unfold parseSemTok Semver.chars
  rw [splitOnChar_append (dot_not_mem_natChars v.major),
    splitOnChar_append (dot_not_mem_natChars v.minor),
    splitOnChar_not_mem (dot_not_mem_natChars v.patch)]
  simp [parseNum_natChars]

theorem parseCompTok_ge (rest : List Char) :
    parseCompTok ('>' :: '=' :: rest) = (parseSemTok rest).map (.cmp .ge) := by
  unfold parseCompTok
  rw [if_neg (by simp), if_neg (by simp), if_pos (by simp)]
  rfl

theorem parseCompTok_le (rest : List Char) :
    parseCompTok ('<' :: '=' :: rest) = (parseSemTok rest).map (.cmp .le) := by
  unfold parseCompTok
  rw [if_neg (by simp), if_neg (by simp), if_neg (by simp), if_pos (by simp)]
  rfl

theorem parseCompTok_gt {rest : List Char} (h : rest.head? ≠ some '=') :
    parseCompTok ('>' :: rest) = (parseSemTok rest).map (.cmp .gt) := by
  unfold parseCompTok
  rw [if_neg (by simp), if_neg (by simp),
    if_neg (by rcases rest with _ | ⟨r, rs⟩ <;> simp_all),
    if_neg (by simp), if_pos (by simp)]
  rfl

theorem parseCompTok_lt {rest : List Char} (h : rest.head? ≠ some '=') :
    parseCompTok ('<' :: rest) = (parseSemTok rest).map (.cmp .lt) := by
  unfold parseCompTok
  rw [if_neg (by simp), if_neg (by simp), if_neg (by simp),
    if_neg (by rcases rest with _ | ⟨r, rs⟩ <;> simp_all),
    if_neg (by simp), if_pos (by simp)]
  rfl

theorem parseCompTok_digit {d : Char} {ds : List Char} (hd : d.isDigit = true) :
    parseCompTok (d :: ds) = (parseSemTok (d :: ds)).map (.cmp .eq) := by
  obtain ⟨hdot, hsp, hpipe, hlt, hgt, heq, hstar⟩ := not_special_of_digit hd
  unfold parseCompTok
  rw [if_neg (by simp), if_neg (by simp [hstar]), if_neg (by simp [hgt]),
    if_neg (by simp [hlt]), if_neg (by simp [hgt]), if_neg (by simp [hlt]),
    if_neg (by simp [heq])]

theorem semChars_head_not_eq (v : Semver) : v.chars.head? ≠ some '=' := by
  obtain ⟨d, ds, hds, hd⟩ := semChars_head_digit v
  rw [hds]
  simpa using (not_special_of_digit hd).2.2.2.2.2.1

theorem parseCompTok_chars (c : Comparator) : parseCompTok c.chars = some c := by
  rcases c with _ | ⟨op, v⟩
  · rfl
  · rcases op
    · show parseCompTok ('<' :: v.chars) = _
      rw [parseCompTok_lt (semChars_head_not_eq v), parseSemTok_chars]
      rfl
    · show parseCompTok ('<' :: '=' :: v.chars) = _
      rw [parseCompTok_le, parseSemTok_chars]
      rfl
    · show parseCompTok ('>' :: v.chars) = _
      rw [parseCompTok_gt (semChars_head_not_eq v), parseSemTok_chars]
      rfl
    · show parseCompTok ('>' :: '=' :: v.chars) = _
      rw [parseCompTok_ge, parseSemTok_chars]
      rfl
    · show parseCompTok v.chars = _
      obtain ⟨d, ds, hds, hd⟩ := semChars_head_digit v
      rw [hds, parseCompTok_digit hd, ← hds, parseSemTok_chars]
      rfl

theorem trimChars_eq_self {l : List Char} (hh : l.head? ≠ some ' ')
    (hl : l.getLast? ≠ some ' ') : trimChars l = l := by
  unfold trimChars
  have h1 : l.dropWhile (· = ' ') = l := by
    rcases l with _ | ⟨c, l'⟩
    · rfl
    · rw [List.dropWhile_cons, if_neg]
      simp only [List.head?_cons, ne_eq, Option.some.injEq] at hh
      simpa using hh
  rw [h1]
  have h2 : l.reverse.dropWhile (· = ' ') = l.reverse := by
    rcases hrev : l.reverse with _ | ⟨c, l'⟩
    · rfl
    · rw [List.dropWhile_cons, if_neg]
      have : l.getLast? = some c := by
        rw [← List.head?_reverse, hrev, List.head?_cons]
      simp only [ne_eq, this, Option.some.injEq] at hl
      simpa using hl
  rw [h2, List.reverse_reverse]

theorem trimChars_sublist (l : List Char) : (trimChars l).Sublist l := by
  unfold trimChars
  have h1 : (((l.dropWhile (· = ' ')).reverse.dropWhile (· = ' ')).reverse).Sublist
      (l.dropWhile (· = ' ')).reverse.reverse := by
    exact List.Sublist.reverse (List.dropWhile_sublist _)
  rw [List.reverse_reverse] at h1
  exact h1.trans (List.dropWhile_sublist _)

theorem mem_trimChars {l : List Char} {c : Char} (h : c ∈ trimChars l) : c ∈ l :=
  (trimChars_sublist l).mem h

/-! ## `seqParse` lemmas -/

theorem seqParse_map {α β : Type} (f : β → Option α) (m : α → β) (l : List α)
    (h : ∀ x ∈ l, f (m x) = some x) : seqParse f (l.map m) = some l := by
  induction l with
  | nil => rfl
  | cons x xs ih =>
    rw [List.map_cons, seqParse, h x (by simp), ih (fun y hy => h y (by simp [hy]))]
    rfl

theorem seqParse_cons_elim {α β : Type} {f : α → Option β} {x : α} {xs : List α}
    {ys : List β} (h : seqParse f (x :: xs) = some ys) :
    ∃ y zs, f x = some y ∧ seqParse f xs = some zs ∧ ys = y :: zs := by
  rw [seqParse] at h
  rcases hfx : f x with _ | y
  · rw [hfx] at h
    exact absurd h (by simp)
  · rw [hfx] at h
    rcases hrest : seqParse f xs with _ | zs
    · rw [hrest] at h
      exact absurd h (by simp)
    · rw [hrest] at h
      refine ⟨y, zs, rfl, rfl, ?_⟩
      cases h
      rfl

theorem seqParse_cons_eq {α β : Type} {f : α → Option β} {x : α} {xs : List α}
    {y : β} {zs : List β} (hx : f x = some y) (hxs : seqParse f xs = some zs) :
    seqParse f (x :: xs) = some (y :: zs) := by
  rw [seqParse, hx, hxs]
  rfl

theorem seqParse_append {α β : Type} (f : α → Option β) {xs ys : List α}
    {as bs : List β} (hx : seqParse f xs = some as) (hy : seqParse f ys = some bs) :
    seqParse f (xs ++ ys) = some (as ++ bs) := by
  induction xs generalizing as with
  | nil =>
    simp only [seqParse] at hx
    cases hx
    simpa using hy
  | cons x xs' ih =>
    obtain ⟨y, zs, hfx, hrest, rfl⟩ := seqParse_cons_elim hx
    rw [List.cons_append]
    rw [seqParse_cons_eq hfx (ih hrest)]
    rfl

theorem seqParse_length {α β : Type} {f : α → Option β} {xs : List α} {ys : List β}
    (h : seqParse f xs = some ys) : ys.length = xs.length := by
  induction xs generalizing ys with
  | nil =>
    simp only [seqParse] at h
    cases h
    rfl
  | cons x xs' ih =>
    obtain ⟨y, zs, hfx, hrest, rfl⟩ := seqParse_cons_elim h
    simp [ih hrest]

theorem seqParse_mem {α β : Type} {f : α → Option β} {xs : List α} {ys : List β}
    (h : seqParse f xs = some ys) : ∀ y ∈ ys, ∃ x ∈ xs, f x = some y := by
  induction xs generalizing ys with
  | nil =>
    simp only [seqParse] at h
    cases h
    simp
  | cons x xs' ih =>
    obtain ⟨y, zs, hfx, hrest, rfl⟩ := seqParse_cons_elim h
    intro z hz
    rcases List.mem_cons.mp hz with rfl | hz'
    · exact ⟨x, by simp, hfx⟩
    · obtain ⟨x', hx', hfx'⟩ := ih hrest z hz'
      exact ⟨x', by simp [hx'], hfx'⟩

/-! ## Branch normalization lemmas -/

theorem dedupFirst_of_nodup {l : List Comparator} (h : l.Nodup) :
    dedupFirst l = l := by
  suffices H : ∀ n (l : List Comparator), l.length ≤ n → l.Nodup →
      dedupFirst l = l from H l.length l le_rfl h
  intro n
  induction n with
  | zero =>
    intro l hl _
    rcases l with _ | _
    · rfl
    · simp at hl
  | succ n ih =>
    intro l hl hnodup
    rcases l with _ | ⟨c, cs⟩
    · rfl
    · rw [dedupFirst_cons]
      have hcn : c ∉ cs := (List.nodup_cons.mp hnodup).1
      have hfe : cs.filter (· ≠ c) = cs :=
        List.filter_eq_self.mpr fun x hx => by
          simp only [ne_eq, decide_not, Bool.not_eq_eq_eq_not, Bool.not_true,
            decide_eq_false_iff_not]
          exact fun hxc => hcn (hxc ▸ hx)
      have hcl : cs.length ≤ n := by
        simp only [List.length_cons] at hl
        omega
      rw [hfe, ih cs hcl (List.nodup_cons.mp hnodup).2]

theorem mem_dedupFirst {l : List Comparator} {x : Comparator}
    (h : x ∈ dedupFirst l) : x ∈ l := by
  suffices H : ∀ n (l : List Comparator), l.length ≤ n → x ∈ dedupFirst l →
      x ∈ l from H l.length l le_rfl h
  intro n
  induction n with
  | zero =>
    intro l hl hm
    rcases l with _ | _
    · simp only [dedupFirst_nil] at hm
      simp at hm
    · simp at hl
  | succ n ih =>
    intro l hl hm
    rcases l with _ | ⟨c, cs⟩
    · simp only [dedupFirst_nil] at hm
      simp at hm
    · rw [dedupFirst_cons] at hm
      rcases List.mem_cons.mp hm with rfl | h'
      · simp
      · have hlen : (cs.filter (· ≠ c)).length ≤ n :=
          le_trans (List.length_filter_le _ _) (by simpa using hl)
        exact List.mem_cons.mpr (.inr (List.mem_of_mem_filter (ih _ hlen h')))

theorem dedupFirst_nodup (l : List Comparator) : (dedupFirst l).Nodup := by
  suffices H : ∀ n (l : List Comparator), l.length ≤ n →
      (dedupFirst l).Nodup from H l.length l le_rfl
  intro n
  induction n with
  | zero =>
    intro l hl
    rcases l with _ | _
    · simp [dedupFirst_nil]
    · simp at hl
  | succ n ih =>
    intro l hl
    rcases l with _ | ⟨c, cs⟩
    · simp [dedupFirst_nil]
    · rw [dedupFirst_cons, List.nodup_cons]
      have hlen : (cs.filter (· ≠ c)).length ≤ n :=
        le_trans (List.length_filter_le _ _) (by simpa using hl)
      refine ⟨fun hmem => ?_, ih _ hlen⟩
      have hm := mem_dedupFirst hmem
      have := (List.mem_filter.mp hm).2
      simp at this

theorem dedupFirst_ne_nil {l : List Comparator} (h : l ≠ []) :
    dedupFirst l ≠ [] := by
  rcases l with _ | ⟨c, cs⟩
  · exact absurd rfl h
  · rw [dedupFirst_cons]
    simp

theorem head?_mem {α : Type} {l : List α} {c : α} (h : l.head? = some c) : c ∈ l := by
  rcases l with _ | ⟨a, as⟩
  · simp at h
  · simp only [List.head?_cons, Option.some.injEq] at h
    simp [h]

theorem getLast?_mem {α : Type} {l : List α} {c : α} (h : l.getLast? = some c) :
    c ∈ l := by
  have := List.mem_reverse.mp (head?_mem (l := l.reverse) (by simpa using h))
  exact this

theorem head_dropWhile_not {p : Char → Bool} {l : List Char} {c : Char}
    (h : (l.dropWhile p).head? = some c) : p c = false := by
  induction l with
  | nil => simp at h
  | cons a as ih =>
    rw [List.dropWhile_cons] at h
    by_cases hp : p a
    · rw [if_pos hp] at h
      exact ih h
    · rw [if_neg hp] at h
      simp only [List.head?_cons, Option.some.injEq] at h
      subst h
      simpa using hp

theorem dropWhile_suffix_exists (p : Char → Bool) (l : List Char) :
    ∃ t, t ++ l.dropWhile p = l := by
  induction l with
  | nil => exact ⟨[], rfl⟩
  | cons a as ih =>
    rw [List.dropWhile_cons]
    by_cases hp : p a
    · rw [if_pos hp]
      obtain ⟨t, ht⟩ := ih
      exact ⟨a :: t, by simp [ht]⟩
    · rw [if_neg hp]
      exact ⟨[], rfl⟩

theorem getLast?_append_ne {α : Type} {l₁ l₂ : List α} (h : l₂ ≠ []) :
    (l₁ ++ l₂).getLast? = l₂.getLast? := by
  induction l₁ with
  | nil => rfl
  | cons a l₁' ih =>
    rcases hx : l₁' ++ l₂ with _ | ⟨b, bs⟩
    · rcases List.append_eq_nil.mp hx with ⟨_, h2⟩
      exact absurd h2 h
    · rw [List.cons_append, hx, List.getLast?_cons_cons, ← hx, ih]

theorem getLast_dropWhile {p : Char → Bool} {l : List Char}
    (hne : l.dropWhile p ≠ []) : (l.dropWhile p).getLast? = l.getLast? := by
  obtain ⟨t, ht⟩ := dropWhile_suffix_exists p l
  conv_rhs => rw [← ht]
  exact (getLast?_append_ne hne).symm

theorem trimChars_getLast_not_space (l : List Char) :
    (trimChars l).getLast? ≠ some ' ' := by
  unfold trimChars
  rw [List.getLast?_reverse]
  intro h
  have := head_dropWhile_not h
  simp at this

theorem trimChars_head_not_space (l : List Char) :
    (trimChars l).head? ≠ some ' ' := by
  unfold trimChars
  intro h
  rw [List.head?_reverse] at h
  have hne : (l.dropWhile (· = ' ')).reverse.dropWhile (· = ' ') ≠ [] := by
    intro hnil
    rw [hnil] at h
    simp at h
  rw [getLast_dropWhile hne, List.getLast?_reverse] at h
  have := head_dropWhile_not h
  simp at this

theorem joinSpace_ne_nil {parts : List (List Char)} (hne : parts ≠ [])
    (hp : ∀ p ∈ parts, p ≠ []) : joinSpace parts ≠ [] := by
  rcases parts with _ | ⟨p, ps⟩
  · exact absurd rfl hne
  · rcases ps with _ | ⟨q, qs⟩
    · exact hp p (by simp)
    · rw [joinSpace_eq _ _ (by simp)]
      have := hp p (by simp)
      rcases p with _ | _
      · exact absurd rfl this
      · simp

theorem joinSpace_head {p : List Char} {ps : List (List Char)} (hp : p ≠ []) :
    (joinSpace (p :: ps)).head? = p.head? := by
  rcases ps with _ | ⟨q, qs⟩
  · rfl
  · rw [joinSpace_eq _ _ (by simp)]
    rcases p with _ | ⟨a, as⟩
    · exact absurd rfl hp
    · rfl

theorem joinSpace_getLast {parts : List (List Char)} (hne : parts ≠ [])
    (hp : ∀ p ∈ parts, p ≠ []) :
    (joinSpace parts).getLast? = (parts.getLast hne).getLast? := by
  induction parts with
  | nil => exact absurd rfl hne
  | cons p ps ih =>
    rcases ps with _ | ⟨q, qs⟩
    · simp [joinSpace]
    · rw [joinSpace_eq _ _ (by simp)]
      have hjs : joinSpace (q :: qs) ≠ [] :=
        joinSpace_ne_nil (by simp) (fun x hx => hp x (by simp [hx]))
      rw [getLast?_append_ne (by simp)]
      have hlast : (' ' :: joinSpace (q :: qs)).getLast? =
          (joinSpace (q :: qs)).getLast? := by
        rcases hj : joinSpace (q :: qs) with _ | ⟨b, bs⟩
        · exact absurd hj hjs
        · simp
      rw [hlast, ih (by simp) (fun x hx => hp x (by simp [hx]))]
      congr 1

theorem compChars_ne_nil {op : Cop} {v : Semver} :
    (Comparator.cmp op v).chars ≠ [] := by
  unfold Comparator.chars
  intro h
  rcases List.append_eq_nil.mp h with ⟨_, h2⟩
  exact semChars_ne_nil v h2

theorem mem_joinSpace {parts : List (List Char)} {x : Char}
    (h : x ∈ joinSpace parts) : x = ' ' ∨ ∃ p ∈ parts, x ∈ p := by
  induction parts with
  | nil => simp [joinSpace] at h
  | cons p ps ih =>
    rcases ps with _ | ⟨q, qs⟩
    · exact .inr ⟨p, by simp, h⟩
    · rw [joinSpace_eq _ _ (by simp)] at h
      rcases List.mem_append.mp h with h' | h'
      · exact .inr ⟨p, by simp, h'⟩
      · rcases List.mem_cons.mp h' with rfl | h''
        · exact .inl rfl
        · rcases ih h'' with h3 | ⟨r, hr, hxr⟩
          · exact .inl h3
          · exact .inr ⟨r, by simp [hr], hxr⟩

theorem branchChars_no_pipe {b : List Comparator} : '|' ∉ branchChars b := by
  intro h
  rcases mem_joinSpace (mem_trimChars h) with h' | ⟨p, hp, hxp⟩
  · exact absurd h' (by decide)
  · obtain ⟨c, _, rfl⟩ := List.mem_map.mp hp
    exact compChars_not_pipe hxp

theorem normalizeBranch_of_wf {b : List Comparator}
    (h : b ≠ [] ∧ b.Nodup ∧ ∀ c ∈ b, c ≠ Comparator.any) :
    normalizeBranch b = b := by
  unfold normalizeBranch
  rw [dedupFirst_of_nodup h.2.1]
  split
  · exact List.filter_eq_self.mpr fun x hx => by
      simpa using h.2.2 x hx
  · rfl

theorem normalizeBranch_any : normalizeBranch [Comparator.any] = [Comparator.any] := rfl

theorem normalizeBranch_wf (cs : List Comparator) (h : cs ≠ []) :
    wfBranch (normalizeBranch cs) := by
  unfold normalizeBranch
  have hnodup := dedupFirst_nodup cs
  have hne := dedupFirst_ne_nil h
  split
  · next hlen =>
    set dd := dedupFirst cs with hdd
    right
    refine ⟨?_, hnodup.filter _, fun c hc => by simpa using (List.mem_filter.mp hc).2⟩
    intro hnil
    have hall : ∀ x ∈ dd, x = Comparator.any := by
      intro x hx
      by_contra hxa
      have : x ∈ dd.filter (fun c => c ≠ Comparator.any) :=
        List.mem_filter.mpr ⟨hx, by simpa using hxa⟩
      rw [hnil] at this
      simp at this
    rcases dd with _ | ⟨d1, _ | ⟨d2, rest⟩⟩
    · simp at hlen
    · simp at hlen
    · have h1 : d1 = Comparator.any := hall d1 (by simp)
      have h2 : d2 = Comparator.any := hall d2 (by simp)
      rw [List.nodup_cons] at hnodup
      exact hnodup.1 (by rw [h1, h2]; simp)
  · next hlen =>
    rcases hd : dedupFirst cs with _ | ⟨d1, rest⟩
    · exact absurd hd hne
    · rw [hd] at hlen hnodup
      have : rest = [] := by
        rcases rest with _ | _
        · rfl
        · simp at hlen
      subst this
      by_cases hany : d1 = Comparator.any
      · left
        rw [hany]
      · right
        exact ⟨by simp, hnodup, by simpa using hany⟩

theorem parseBranchTok_branchChars {b : List Comparator} (h : wfBranch b) :
    parseBranchTok (branchChars b) = some b := by
  rcases h with rfl | ⟨hne, hnodup, hnoany⟩
  · rfl
  · obtain ⟨c0, cs, rfl⟩ := List.exists_cons_of_ne_nil hne
    have hparts : ∀ p ∈ (c0 :: cs).map Comparator.chars, p ≠ [] ∧ ' ' ∉ p := by
      intro p hp
      obtain ⟨c, hc, rfl⟩ := List.mem_map.mp hp
      rcases c with _ | ⟨op, v⟩
      · exact absurd rfl (hnoany _ hc)
      · exact ⟨compChars_ne_nil, compChars_not_space⟩
    have hpne : ∀ p ∈ (c0 :: cs).map Comparator.chars, p ≠ [] :=
      fun p hp => (hparts p hp).1
    have hpns : ∀ p ∈ (c0 :: cs).map Comparator.chars, ' ' ∉ p :=
      fun p hp => (hparts p hp).2
    have hhead : (joinSpace ((c0 :: cs).map Comparator.chars)).head? ≠ some ' ' := by
      rw [List.map_cons, joinSpace_head (hpne _ (by simp))]
      intro hx
      exact hpns _ (by simp) (head?_mem hx)
    have hlast : (joinSpace ((c0 :: cs).map Comparator.chars)).getLast? ≠
        some ' ' := by
      rw [joinSpace_getLast (by simp) hpne]
      intro hx
      exact hpns _ (List.getLast_mem _) (getLast?_mem hx)
    have htrim : trimChars (joinSpace ((c0 :: cs).map Comparator.chars)) =
        joinSpace ((c0 :: cs).map Comparator.chars) :=
      trimChars_eq_self hhead hlast
    have hbc : branchChars (c0 :: cs) = joinSpace ((c0 :: cs).map Comparator.chars) :=
      htrim
    rw [hbc]
    unfold parseBranchTok
    rw [htrim, splitOnChar_joinSpace (by simp) hpns]
    have hfilter : ((c0 :: cs).map Comparator.chars).filter (· ≠ []) =
        (c0 :: cs).map Comparator.chars :=
      List.filter_eq_self.mpr fun p hp => by simpa using hpne p hp
    rw [hfilter, List.map_cons]
    show (seqParse parseCompTok (Comparator.chars c0 :: cs.map Comparator.chars)).map
      normalizeBranch = some (c0 :: cs)
    have hsp : seqParse parseCompTok ((c0 :: cs).map Comparator.chars) =
        some (c0 :: cs) :=
      seqParse_map parseCompTok Comparator.chars _ fun x _ => parseCompTok_chars x
    rw [List.map_cons] at hsp
    rw [hsp]
    exact congrArg some (normalizeBranch_of_wf ⟨by simp, hnodup, hnoany⟩)

theorem joinPipes_head_not_space {parts : List (List Char)}
    (hp : ∀ p ∈ parts, p.head? ≠ some ' ') :
    (joinPipes parts).head? ≠ some ' ' := by
  induction parts with
  | nil => simp [joinPipes]
  | cons p ps ih =>
    rcases ps with _ | ⟨q, qs⟩
    · exact hp p (by simp)
    · rw [joinPipes_eq _ _ (by simp)]
      rcases p with _ | ⟨a, as⟩
      · simp
      · simpa using hp (a :: as) (by simp)

theorem joinPipes_getLast_not_space {parts : List (List Char)}
    (hp : ∀ p ∈ parts, p.getLast? ≠ some ' ') :
    (joinPipes parts).getLast? ≠ some ' ' := by
  induction parts with
  | nil => simp [joinPipes]
  | cons p ps ih =>
    rcases ps with _ | ⟨q, qs⟩
    · exact hp p (by simp)
    · rw [joinPipes_eq _ _ (by simp), getLast?_append_ne (by simp)]
      have := ih fun x hx => hp x (by simp [hx])
      rcases hj : joinPipes (q :: qs) with _ | ⟨b, bs⟩
      · simp
      · rw [hj] at this
        simpa using this

theorem formatSetChars_eq (S : List (List Comparator)) :
    formatSetChars S = joinPipes (S.map branchChars) := by
  unfold formatSetChars
  exact trimChars_eq_self
    (joinPipes_head_not_space fun p hp => by
      obtain ⟨b, _, rfl⟩ := List.mem_map.mp hp
      exact trimChars_head_not_space _)
    (joinPipes_getLast_not_space fun p hp => by
      obtain ⟨b, _, rfl⟩ := List.mem_map.mp hp
      exact trimChars_getLast_not_space _)

theorem parseRangeChars_format {S : List (List Comparator)} (h : wfSet S) :
    parseRangeChars (formatSetChars S) = some S := by
  rw [formatSetChars_eq]
  unfold parseRangeChars
  rw [splitPipes_joinPipes (by simpa using h.1) (fun p hp => by
    obtain ⟨b, _, rfl⟩ := List.mem_map.mp hp
    exact branchChars_no_pipe)]
  exact seqParse_map parseBranchTok branchChars S fun b hb =>
    parseBranchTok_branchChars (h.2 b hb)

theorem wfBranch_parseBranchTok {l : List Char} {b : List Comparator}
    (h : parseBranchTok l = some b) : wfBranch b := by
  unfold parseBranchTok at h
  rcases hts : (splitOnChar ' ' (trimChars l)).filter (· ≠ []) with _ | ⟨t, ts⟩
  · rw [hts] at h
    simp only [Option.some.injEq] at h
    exact .inl h.symm
  · rw [hts] at h
    have h' : (seqParse parseCompTok (t :: ts)).map normalizeBranch = some b := h
    rcases hsp : seqParse parseCompTok (t :: ts) with _ | cs
    · rw [hsp] at h'
      simp at h'
    · rw [hsp] at h'
      simp only [Option.map_some', Option.some.injEq] at h'
      subst h'
      apply normalizeBranch_wf
      intro hnil
      have := seqParse_length hsp
      rw [hnil] at this
      simp at this

theorem wfSet_parse {l : List Char} {S : List (List Comparator)}
    (h : parseRangeChars l = some S) : wfSet S := by
  unfold parseRangeChars at h
  constructor
  · intro hnil
    have hlen := seqParse_length h
    rw [hnil] at hlen
    have := splitPipes_ne_nil l
    rcases hsp : splitPipes l with _ | _
    · exact this hsp
    · rw [hsp] at hlen
      simp at hlen
  · intro b hb
    obtain ⟨x, _, hx⟩ := seqParse_mem h b hb
    exact wfBranch_parseBranchTok hx

/-! ## Parsing the `<left> || <point>` and `<v1> || <v2>` templates -/

theorem branchChars_point (p : Semver) :
    branchChars [Comparator.cmp .eq p] = p.chars := by
  unfold branchChars
  have hjs : joinSpace [(Comparator.cmp .eq p).chars] = (Comparator.cmp .eq p).chars :=
    rfl
  rw [List.map_cons, List.map_nil, hjs]
  have hch : (Comparator.cmp Cop.eq p).chars = p.chars := by
    simp [Comparator.chars, Cop.chars]
  rw [hch]
  exact trimChars_eq_self
    (fun h => semChars_not_space (head?_mem h))
    (fun h => semChars_not_space (getLast?_mem h))

theorem wfBranch_point (p : Semver) : wfBranch [Comparator.cmp .eq p] :=
  .inr ⟨by simp, by simp, by simp⟩

theorem parseBranchTok_semChars (p : Semver) :
    parseBranchTok p.chars = some [Comparator.cmp .eq p] := by
  rw [← branchChars_point p]
  exact parseBranchTok_branchChars (wfBranch_point p)

theorem parseBranchTok_append_space (x : List Char) :
    parseBranchTok (x ++ [' ']) = parseBranchTok x := by
  unfold parseBranchTok
  rw [trimChars_append_space]

theorem parseBranchTok_cons_space (x : List Char) :
    parseBranchTok (' ' :: x) = parseBranchTok x := by
  unfold parseBranchTok
  rw [trimChars_cons_space]

theorem padLast_cons {q : List Char} {qs : List (List Char)} (h : qs ≠ []) :
    padLast (q :: qs) = q :: padLast qs := by
  rcases qs with _ | ⟨a, b⟩
  · exact absurd rfl h
  · rfl

theorem joinPipes_pad {parts : List (List Char)} (hne : parts ≠ []) (z : List Char) :
    joinPipes parts ++ (' ' :: '|' :: '|' :: ' ' :: z) =
      joinPipes (padLast parts ++ [' ' :: z]) := by
  induction parts with
  | nil => exact absurd rfl hne
  | cons q qs ih =>
    rcases qs with _ | ⟨q', qs'⟩
    · show q ++ (' ' :: '|' :: '|' :: ' ' :: z) =
        joinPipes [q ++ [' '], ' ' :: z]
      rw [joinPipes_eq _ _ (by simp)]
      simp [joinPipes]
    · have hpl : padLast (q :: q' :: qs') = q :: padLast (q' :: qs') := rfl
      have hne2 : padLast (q' :: qs') ++ [' ' :: z] ≠ [] := by simp
      rw [joinPipes_eq _ _ (by simp), List.append_assoc, List.cons_append,
        List.cons_append, ih (by simp), hpl, List.cons_append,
        joinPipes_eq _ _ hne2]

theorem mem_padLast {parts : List (List Char)} {x : List Char}
    (h : x ∈ padLast parts) : ∃ p ∈ parts, x = p ∨ x = p ++ [' '] := by
  induction parts with
  | nil => simp [padLast] at h
  | cons q qs ih =>
    rcases qs with _ | ⟨q', qs'⟩
    · simp only [padLast, List.mem_singleton] at h
      exact ⟨q, by simp, .inr h⟩
    · rw [show padLast (q :: q' :: qs') = q :: padLast (q' :: qs') from rfl] at h
      rcases List.mem_cons.mp h with rfl | h'
      · exact ⟨x, by simp, .inl rfl⟩
      · obtain ⟨p, hp, hx⟩ := ih h'
        exact ⟨p, by simp [hp], hx⟩

theorem seqParse_padLast {S : List (List Comparator)}
    (h : ∀ b ∈ S, parseBranchTok (branchChars b) = some b) :
    seqParse parseBranchTok (padLast (S.map branchChars)) = some S := by
  induction S with
  | nil => rfl
  | cons b bs ih =>
    rcases bs with _ | ⟨b', bs'⟩
    · show seqParse parseBranchTok [branchChars b ++ [' ']] = some [b]
      rw [seqParse, parseBranchTok_append_space, h b (by simp)]
      rfl
    · rw [List.map_cons, padLast_cons (by simp)]
      exact seqParse_cons_eq (h b (by simp))
        (ih fun x hx => h x (by simp [hx]))

theorem parseRangeChars_or_point {S : List (List Comparator)} (h : wfSet S)
    (p : Semver) :
    parseRangeChars (formatSetChars S ++ (' ' :: '|' :: '|' :: ' ' :: p.chars)) =
      some (S ++ [[Comparator.cmp .eq p]]) := by
  rw [formatSetChars_eq, joinPipes_pad (by simpa using h.1) p.chars]
  unfold parseRangeChars
  rw [splitPipes_joinPipes (by simp) (fun x hx => by
    rcases List.mem_append.mp hx with hx' | hx'
    · obtain ⟨q, hq, hxq⟩ := mem_padLast hx'
      obtain ⟨b, _, rfl⟩ := List.mem_map.mp hq
      rcases hxq with rfl | rfl
      · exact branchChars_no_pipe
      · intro hmem
        rcases List.mem_append.mp hmem with hm | hm
        · exact branchChars_no_pipe hm
        · simp at hm
    · rw [List.mem_singleton.mp hx']
      intro hmem
      rcases List.mem_cons.mp hmem with hm | hm
      · exact absurd hm (by decide)
      · exact semChars_not_pipe hm)]
  refine seqParse_append parseBranchTok
    (seqParse_padLast fun b hb => parseBranchTok_branchChars (h.2 b hb)) ?_
  rw [seqParse, parseBranchTok_cons_space, parseBranchTok_semChars]
  rfl

/-! ## Membership semantics of parsed sets -/

theorem comp_eq_beq (v p : Semver) : (v.comp p == Ordering.eq) = (v == p) := by
  by_cases h : v = p
  · subst h
    rw [Semver.comp_self]
    have hbeq : (v == v) = true := by simp
    rw [hbeq]
    decide
  · have hne : v.comp p ≠ .eq := fun hc => h ((Semver.comp_eq_iff v p).mp hc)
    have hbeq : (v == p) = false := by simpa using h
    rw [hbeq]
    rcases hc : v.comp p
    · decide
    · exact absurd hc hne
    · decide

theorem testSet_append (S T : List (List Comparator)) (v : Semver) :
    testSet (S ++ T) v = (testSet S v || testSet T v) := by
  unfold testSet
  exact List.any_append

theorem testSet_point (p v : Semver) :
    testSet [[Comparator.cmp .eq p]] v = (v == p) := by
  unfold testSet
  simp only [List.any_cons, List.any_nil, List.all_cons, List.all_nil,
    Bool.or_false, Bool.and_true]
  exact comp_eq_beq v p

/-! ## Bridge lemmas: `SRange` operations on freshly formatted raws -/

theorem str_data (v : Semver) : v.str.data = v.chars := rfl

theorem parseRangeChars_semChars (v : Semver) :
    parseRangeChars v.chars = some [[Comparator.cmp .eq v]] := by
  unfold parseRangeChars
  rw [splitPipes_not_mem semChars_not_pipe, seqParse, parseBranchTok_semChars]
  rfl

theorem satisfiesStr_point (t v : Semver) : satisfiesStr t v.str = (t == v) := by
  unfold satisfiesStr
  rw [str_data, parseRangeChars_semChars]
  exact testSet_point v t

theorem format_data {r : SRange} {S : List (List Comparator)}
    (hr : r.sets = some S) : r.format.data = formatSetChars S := by
  unfold SRange.format
  rw [hr]

theorem mk_format_sets {r : SRange} {S : List (List Comparator)}
    (hr : r.sets = some S) : (SRange.mk r.format).sets = some S := by
  show parseRangeChars r.format.data = some S
  rw [format_data hr]
  exact parseRangeChars_format (wfSet_parse hr)

theorem format_eq {r : SRange} {S : List (List Comparator)}
    (hr : r.sets = some S) : r.format = String.mk (formatSetChars S) := by
  unfold SRange.format
  rw [hr]

theorem format_format {r : SRange} (h : r.valid = true) :
    SRange.format ⟨r.format⟩ = r.format := by
  obtain ⟨S, hS⟩ := Option.isSome_iff_exists.mp h
  rw [format_eq (mk_format_sets hS), format_eq hS]

theorem test_mk_format {r : SRange} {S : List (List Comparator)}
    (hr : r.sets = some S) (v : Semver) :
    SRange.test ⟨r.format⟩ v = r.test v := by
  unfold SRange.test
  rw [mk_format_sets hr, hr]

theorem or_point_data {r : SRange} {S : List (List Comparator)}
    (hr : r.sets = some S) (p : Semver) :
    (r.format ++ " || " ++ p.str).data =
      formatSetChars S ++ (' ' :: '|' :: '|' :: ' ' :: p.chars) := by
  rw [String.data_append, String.data_append, format_data hr,
    List.append_assoc]
  rfl

theorem or_point_sets {r : SRange} {S : List (List Comparator)}
    (hr : r.sets = some S) (p : Semver) :
    (SRange.mk (r.format ++ " || " ++ p.str)).sets =
      some (S ++ [[Comparator.cmp .eq p]]) := by
  show parseRangeChars (r.format ++ " || " ++ p.str).data = _
  rw [or_point_data hr p]
  exact parseRangeChars_or_point (wfSet_parse hr) p

theorem or_point_test {r : SRange} {S : List (List Comparator)}
    (hr : r.sets = some S) (p v : Semver) :
    SRange.test ⟨r.format ++ " || " ++ p.str⟩ v =
      (testSet S v || (v == p)) := by
  unfold SRange.test
  rw [or_point_sets hr p]
  show testSet (S ++ [[Comparator.cmp .eq p]]) v = _
  rw [testSet_append, testSet_point]

theorem point_point_data (v1 v2 : Semver) :
    (v1.str ++ " || " ++ v2.str).data =
      formatSetChars [[Comparator.cmp .eq v1]] ++
        (' ' :: '|' :: '|' :: ' ' :: v2.chars) := by
  rw [String.data_append, String.data_append]
  have hfmt : formatSetChars [[Comparator.cmp .eq v1]] = v1.chars := by
    rw [formatSetChars_eq, List.map_cons, List.map_nil, branchChars_point]
    rfl
  rw [hfmt, List.append_assoc]
  rfl

theorem point_point_sets (v1 v2 : Semver) :
    (SRange.mk (v1.str ++ " || " ++ v2.str)).sets =
      some [[Comparator.cmp .eq v1], [Comparator.cmp .eq v2]] := by
  show parseRangeChars (v1.str ++ " || " ++ v2.str).data = _
  rw [point_point_data]
  exact parseRangeChars_or_point
    ⟨by simp, fun b hb => by
      rw [List.mem_singleton.mp hb]
      exact wfBranch_point v1⟩ v2

theorem point_point_test (v1 v2 v : Semver) :
    SRange.test ⟨v1.str ++ " || " ++ v2.str⟩ v = ((v == v1) || (v == v2)) := by
  unfold SRange.test
  rw [point_point_sets]
  show testSet ([[Comparator.cmp .eq v1]] ++ [[Comparator.cmp .eq v2]]) v = _
  rw [testSet_append, testSet_point, testSet_point]

theorem updateFirst_length {T : Type} (p : T → Bool) (g : T → T) (l : List T) :
    (updateFirst p g l).length = l.length := by
  induction l with
  | nil => rfl
  | cons x xs ih =>
    rw [updateFirst]
    by_cases hp : p x
    · rw [if_pos hp]
      rfl
    · rw [if_neg hp]
      simpa using ih

theorem identicalSignature_iff (s t : VariableSignature) :
    identicalSignature s t = true ↔ s = t := by
  unfold identicalSignature
  rcases s with ⟨sn, st, sb⟩
  rcases t with ⟨tn, tt, tb⟩
  simp [VariableSignature.mk.injEq, and_assoc]

theorem identicalArrays_iff (l r : List VariableSignature) :
    identicalArrays l r identicalSignature = true ↔
      (l.length = r.length ∧ ∀ s ∈ l, ∃ t ∈ r,
        s.name = t.name ∧ s.type = t.type ∧ s.nilable = t.nilable) := by
  unfold identicalArrays
  rw [Bool.and_eq_true, beq_iff_eq, List.all_eq_true]
  constructor
  · rintro ⟨h1, h2⟩
    refine ⟨h1, fun s hs => ?_⟩
    obtain ⟨t, ht, hst⟩ := List.any_eq_true.mp (h2 s hs)
    have heq := (identicalSignature_iff s t).mp hst
    exact ⟨t, ht, by rw [heq], by rw [heq], by rw [heq]⟩
  · rintro ⟨h1, h2⟩
    refine ⟨h1, fun s hs => List.any_eq_true.mpr ?_⟩
    obtain ⟨t, ht, hn, hty, hnil⟩ := h2 s hs
    refine ⟨t, ht, ?_⟩
    unfold identicalSignature
    simp [hn, hty, hnil]

theorem identicalArrays_symm_nodup {l r : List VariableSignature}
    (hl : l.Nodup) (hr : r.Nodup) :
    identicalArrays l r identicalSignature = identicalArrays r l identicalSignature := by
  have hchar : ∀ (a b : List VariableSignature),
      identicalArrays a b identicalSignature = true ↔
        a.length = b.length ∧ ∀ x ∈ a, x ∈ b := by
    intro a b
    unfold identicalArrays
    rw [Bool.and_eq_true, beq_iff_eq, List.all_eq_true]
    constructor
    · refine fun ⟨h1, h2⟩ => ⟨h1, fun x hx => ?_⟩
      obtain ⟨y, hy, hxy⟩ := List.any_eq_true.mp (h2 x hx)
      rw [(identicalSignature_iff x y).mp hxy]
      exact hy
    · refine fun ⟨h1, h2⟩ => ⟨h1, fun x hx => List.any_eq_true.mpr
        ⟨x, h2 x hx, (identicalSignature_iff x x).mpr rfl⟩⟩
  by_cases h1 : identicalArrays l r identicalSignature = true
  · obtain ⟨hlen, hsub⟩ := (hchar l r).mp h1
    have hperm : l.Perm r :=
      (hl.subperm hsub).perm_of_length_le (le_of_eq hlen.symm)
    rw [h1, eq_comm]
    exact (hchar r l).mpr ⟨hlen.symm, fun x hx => hperm.mem_iff.mpr hx⟩
  · rw [Bool.not_eq_true] at h1
    rw [h1]
    by_contra hcon
    rw [eq_comm, Bool.not_eq_false] at hcon
    obtain ⟨hlen, hsub⟩ := (hchar r l).mp hcon
    have hperm : r.Perm l :=
      (hr.subperm hsub).perm_of_length_le (le_of_eq hlen.symm)
    have : identicalArrays l r identicalSignature = true :=
      (hchar l r).mpr ⟨hlen.symm, fun x hx => hperm.mem_iff.mpr hx⟩
    rw [this] at h1
    simp at h1

/-! ## Round-trip conditions and per-entity load/serialize lemmas -/

theorem parseVersionStr_rawStr {v : SVersion} (h : versionRoundTrips v) :
    parseVersionStr v.rawStr = some v := by
  rcases v with v | r
  · show parseVersionStr v.str = _
    unfold parseVersionStr
    have hval : validSemTok v.str.data = true := by
      unfold validSemTok
      rw [str_data, parseSemTok_chars]
      rfl
    rw [if_pos hval, str_data, parseSemTok_chars]
    rfl
  · obtain ⟨hval, hnotsem⟩ := h
    show parseVersionStr r.raw = _
    unfold parseVersionStr
    rw [if_neg (by rw [hnotsem]; simp), if_pos (by exact hval)]

theorem loadFunction_toJSON {f : APIFunction} (hv : versionRoundTrips f.version)
    (hns : f.ns ≠ "") : loadFunction f.toJSON = some f := by
  obtain ⟨n, d, ps, rs, es, ns, ver⟩ := f
  unfold loadFunction APIFunction.toJSON
  simp only []
  rw [parseVersionStr_rawStr hv]
  simp only [Option.map_some']
  congr 1
  unfold APIFunction.ofProps
  simp only [Option.getD_some, jsOr]
  rw [if_neg (by simpa using hns)]

theorem loadTable_toJSON {t : APITable} (hv : versionRoundTrips t.version)
    (hns : t.ns ≠ "") (hd : t.description = "") (hty : t.type = "")
    (hp : t.parameters = []) (hvals : t.values = []) :
    loadTable t.toJSON = some t := by
  obtain ⟨n, d, ty, fs, ps, vs, ns, ver⟩ := t
  simp only [] at hd hty hp hvals
  subst hd hty hp hvals
  unfold loadTable APITable.toJSON
  simp only []
  rw [parseVersionStr_rawStr hv]
  simp only [Option.map_some']
  congr 1
  unfold APITable.ofProps
  simp only [Option.getD_none, jsOr]
  rw [if_neg (by simpa using hns)]

theorem loadEvent_toJSON {e : APIEvent} (hv : versionRoundTrips e.version)
    (hns : e.ns ≠ "") (hd : e.description = "") :
    loadEvent e.toJSON = some e := by
  obtain ⟨n, d, ln, pl, ns, ver⟩ := e
  simp only [] at hd
  subst hd
  unfold loadEvent APIEvent.toJSON
  simp only []
  rw [parseVersionStr_rawStr hv]
  simp only [Option.map_some']
  congr 1
  unfold APIEvent.ofProps
  simp only [Option.getD_none, jsOr]
  rw [if_neg (by simpa using hns)]

/-! ## Concrete scenario inputs -/

/-! ## Claim theorems -/

/-- C1: `API.combine` handles functions, tables and events
independently, seeding each kind with the left collection's list and
folding in the right entities in order.  One fold step looks up the
first accumulated entity with the same name: a structurally identical
match has its version extended in place and nothing is appended (the
length is unchanged), while a non-identical match or no match appends
the right entity.  Scenario A produces exactly two `FooBar` rows;
Scenario B produces exactly one `FooBar` row whose version tests true at
both 1.0.0 and 2.0.0. -/
theorem spec_C1 :
    (∀ L R : API, L.combine R =
      { functions := combineFunctions L.functions R.functions
        tables := combineTables L.tables R.tables
        events := combineEvents L.events R.events }) ∧
    (∀ (acc : List APIFunction) (c f : APIFunction),
      acc.find? (fun g => c.name == g.name) = some f →
      f.identicalTo c = true →
      combineFunctions acc [c] =
        updateFirst (fun g => c.name == g.name)
          (fun g => { g with version := g.version.extend c.version }) acc ∧
      (combineFunctions acc [c]).length = acc.length) ∧
    (∀ (acc : List APIFunction) (c f : APIFunction),
      acc.find? (fun g => c.name == g.name) = some f →
      f.identicalTo c = false →
      combineFunctions acc [c] = acc ++ [c]) ∧
    (∀ (acc : List APIFunction) (c : APIFunction),
      acc.find? (fun g => c.name == g.name) = none →
      combineFunctions acc [c] = acc ++ [c]) ∧
    (∀ (acc : List APIFunction) (c : APIFunction) (cs : List APIFunction),
      combineFunctions acc (c :: cs) =
        combineFunctions (combineFunctions acc [c]) cs) ∧
    ((scenarioL.combine scenarioAR).functions.map (fun f => f.name) =
      ["FooBar", "FooBar"]) ∧
    ((scenarioL.combine scenarioBR).functions =
      [{ scFun "FooBar" (.point ⟨1, 0, 0⟩) with
          version := .range ⟨"1.0.0 || 2.0.0"⟩ }] ∧
      SRange.test ⟨"1.0.0 || 2.0.0"⟩ ⟨1, 0, 0⟩ = true ∧
      SRange.test ⟨"1.0.0 || 2.0.0"⟩ ⟨2, 0, 0⟩ = true) := by
  refine ⟨fun L R => rfl, ?_, ?_, ?_, fun acc c cs => rfl, by decide, by decide⟩
  · intro acc c f hfind hident
    have hstep : combineFunctions acc [c] =
        updateFirst (fun g => c.name == g.name)
          (fun g => { g with version := g.version.extend c.version }) acc := by
      simp only [combineFunctions, combineItems, List.foldl_cons, List.foldl_nil]
      simp only [hfind, hident, if_true]
    exact ⟨hstep, by rw [hstep, updateFirst_length]⟩
  · intro acc c f hfind hident
    simp only [combineFunctions, combineItems, List.foldl_cons, List.foldl_nil]
    simp only [hfind, hident]
    simp
  · intro acc c hfind
    simp only [combineFunctions, combineItems, List.foldl_cons, List.foldl_nil]
    simp only [hfind]

/-- C1 witness: the append-on-missing-name step at a concrete input. -/
theorem spec_C1_witness :
    ([] : List APIFunction).find?
        (fun g => (scFun "A" (.point ⟨1, 0, 0⟩)).name == g.name) = none ∧
    combineFunctions [] [scFun "A" (.point ⟨1, 0, 0⟩)] =
      [] ++ [scFun "A" (.point ⟨1, 0, 0⟩)] :=
  ⟨by decide, spec_C1.2.2.2.1 [] (scFun "A" (.point ⟨1, 0, 0⟩)) (by decide)⟩

/-- C2: merging the three Scenario C collections and filtering for
2.0.0 yields exactly the three functions `Foo`, `Bar`, `Baz` whose
versions format to `1.0.0||2.0.0||3.0.0`, `>1.0.0` and `<3.0.0`. -/
theorem spec_C2 :
    (APIBuilder.merge [colC1, colC2, colC3]).map
        (fun api => (api.filterForVersion ⟨2, 0, 0⟩).functions.map
          (fun f => (f.name, versionLabel f.version))) =
      some [("Foo", "1.0.0||2.0.0||3.0.0"), ("Bar", ">1.0.0"),
        ("Baz", "<3.0.0")] := by
  decide

/-- C3: extending a range by a range takes the right range when the left
is a `subset` of it, the left range when the right is a subset of it,
and otherwise the space-joined concatenation of the two formatted
ranges; the concatenation is AND-style, so a version satisfying the left
range alone (2.0.0 against `>1.0.0`) can fail the combined result
(`>1.0.0 <1.0.0`). -/
theorem spec_C3 :
    (∀ l r : SRange, l.valid = true → r.valid = true →
      (subsetR l r = true →
        (SVersion.range l).extend (.range r) = .range ⟨r.format⟩ ∧
        SRange.format ⟨r.format⟩ = r.format) ∧
      (subsetR l r = false → subsetR r l = true →
        (SVersion.range l).extend (.range r) = .range ⟨l.format⟩ ∧
        SRange.format ⟨l.format⟩ = l.format) ∧
      (subsetR l r = false → subsetR r l = false →
        (SVersion.range l).extend (.range r) =
          .range ⟨l.format ++ " " ++ r.format⟩)) ∧
    (SRange.test ⟨">1.0.0"⟩ ⟨2, 0, 0⟩ = true ∧
      (SVersion.range ⟨">1.0.0"⟩).extend (.range ⟨"<1.0.0"⟩) =
        .range ⟨">1.0.0 <1.0.0"⟩ ∧
      SRange.test ⟨">1.0.0 <1.0.0"⟩ ⟨2, 0, 0⟩ = false) := by
  refine ⟨fun l r hl hr => ⟨?_, ?_, ?_⟩, by decide, by decide, by decide⟩
  · intro h1
    refine ⟨?_, format_format hr⟩
    show (if subsetR l r then SVersion.range ⟨r.format⟩
      else if subsetR r l then .range ⟨l.format⟩
      else .range ⟨l.format ++ " " ++ r.format⟩) = _
    rw [if_pos h1]
  · intro h1 h2
    refine ⟨?_, format_format hl⟩
    show (if subsetR l r then SVersion.range ⟨r.format⟩
      else if subsetR r l then .range ⟨l.format⟩
      else .range ⟨l.format ++ " " ++ r.format⟩) = _
    rw [if_neg (by simp [h1]), if_pos h2]
  · intro h1 h2
    show (if subsetR l r then SVersion.range ⟨r.format⟩
      else if subsetR r l then .range ⟨l.format⟩
      else .range ⟨l.format ++ " " ++ r.format⟩) = _
    rw [if_neg (by simp [h1]), if_neg (by simp [h2])]

/-- C3 witness: the right-subset branch at `>1.0.0` extended by
`>2.0.0`. -/
theorem spec_C3_witness :
    (subsetR ⟨">1.0.0"⟩ ⟨">2.0.0"⟩ = true →
      (SVersion.range ⟨">1.0.0"⟩).extend (.range ⟨">2.0.0"⟩) =
        .range ⟨SRange.format ⟨">2.0.0"⟩⟩ ∧
      SRange.format ⟨SRange.format ⟨">2.0.0"⟩⟩ = SRange.format ⟨">2.0.0"⟩) ∧
    (subsetR ⟨">1.0.0"⟩ ⟨">2.0.0"⟩ = false →
      subsetR ⟨">2.0.0"⟩ ⟨">1.0.0"⟩ = true →
      (SVersion.range ⟨">1.0.0"⟩).extend (.range ⟨">2.0.0"⟩) =
        .range ⟨SRange.format ⟨">1.0.0"⟩⟩ ∧
      SRange.format ⟨SRange.format ⟨">1.0.0"⟩⟩ = SRange.format ⟨">1.0.0"⟩) ∧
    (subsetR ⟨">1.0.0"⟩ ⟨">2.0.0"⟩ = false →
      subsetR ⟨">2.0.0"⟩ ⟨">1.0.0"⟩ = false →
      (SVersion.range ⟨">1.0.0"⟩).extend (.range ⟨">2.0.0"⟩) =
        .range ⟨SRange.format ⟨">1.0.0"⟩ ++ " " ++ SRange.format ⟨">2.0.0"⟩⟩) :=
  spec_C3.1 ⟨">1.0.0"⟩ ⟨">2.0.0"⟩ (by decide) (by decide)

/-- C4: structural identity is exactly name, namespace, and set-style
signature-list agreement (equal lengths, every left signature matched
field-wise on name/type/nilable by some right signature) per kind, with
events additionally comparing `literalName`; the predicates are total
Boolean functions. -/
theorem spec_C4 :
    (∀ a b : APIFunction, a.identicalTo b = true ↔
      (a.name = b.name ∧ a.ns = b.ns ∧
        a.parameters.length = b.parameters.length ∧
        (∀ s ∈ a.parameters, ∃ t ∈ b.parameters,
          s.name = t.name ∧ s.type = t.type ∧ s.nilable = t.nilable) ∧
        a.returns.length = b.returns.length ∧
        (∀ s ∈ a.returns, ∃ t ∈ b.returns,
          s.name = t.name ∧ s.type = t.type ∧ s.nilable = t.nilable))) ∧
    (∀ a b : APITable, a.identicalTo b = true ↔
      (a.name = b.name ∧ a.ns = b.ns ∧
        a.fields.length = b.fields.length ∧
        (∀ s ∈ a.fields, ∃ t ∈ b.fields,
          s.name = t.name ∧ s.type = t.type ∧ s.nilable = t.nilable))) ∧
    (∀ a b : APIEvent, a.identicalTo b = true ↔
      (a.name = b.name ∧ a.literalName = b.literalName ∧ a.ns = b.ns ∧
        a.payload.length = b.payload.length ∧
        (∀ s ∈ a.payload, ∃ t ∈ b.payload,
          s.name = t.name ∧ s.type = t.type ∧ s.nilable = t.nilable))) := by
  refine ⟨fun a b => ?_, fun a b => ?_, fun a b => ?_⟩ <;>
    · simp only [APIFunction.identicalTo, APITable.identicalTo,
        APIEvent.identicalTo, identicalArrays_iff, Bool.and_eq_true,
        beq_iff_eq]
      tauto

/-- C4 witness: the function-kind characterization at Scenario A's two
`FooBar` variants (structurally different). -/
theorem spec_C4_witness :
    (scFun "FooBar" (.point ⟨1, 0, 0⟩)).identicalTo
        (APIFunction.ofProps ⟨"FooBar", none, none, [sigFoo], [], none,
          .point ⟨2, 0, 0⟩⟩) = true ↔
      ((scFun "FooBar" (.point ⟨1, 0, 0⟩)).name =
          (APIFunction.ofProps ⟨"FooBar", none, none, [sigFoo], [], none,
            .point ⟨2, 0, 0⟩⟩).name ∧
        (scFun "FooBar" (.point ⟨1, 0, 0⟩)).ns =
          (APIFunction.ofProps ⟨"FooBar", none, none, [sigFoo], [], none,
            .point ⟨2, 0, 0⟩⟩).ns ∧
        (scFun "FooBar" (.point ⟨1, 0, 0⟩)).parameters.length =
          (APIFunction.ofProps ⟨"FooBar", none, none, [sigFoo], [], none,
            .point ⟨2, 0, 0⟩⟩).parameters.length ∧
        (∀ s ∈ (scFun "FooBar" (.point ⟨1, 0, 0⟩)).parameters,
          ∃ t ∈ (APIFunction.ofProps ⟨"FooBar", none, none, [sigFoo], [],
            none, .point ⟨2, 0, 0⟩⟩).parameters,
            s.name = t.name ∧ s.type = t.type ∧ s.nilable = t.nilable) ∧
        (scFun "FooBar" (.point ⟨1, 0, 0⟩)).returns.length =
          (APIFunction.ofProps ⟨"FooBar", none, none, [sigFoo], [], none,
            .point ⟨2, 0, 0⟩⟩).returns.length ∧
        (∀ s ∈ (scFun "FooBar" (.point ⟨1, 0, 0⟩)).returns,
          ∃ t ∈ (APIFunction.ofProps ⟨"FooBar", none, none, [sigFoo], [],
            none, .point ⟨2, 0, 0⟩⟩).returns,
            s.name = t.name ∧ s.type = t.type ∧ s.nilable = t.nilable)) :=
  spec_C4.1 (scFun "FooBar" (.point ⟨1, 0, 0⟩))
    (APIFunction.ofProps ⟨"FooBar", none, none, [sigFoo], [], none,
      .point ⟨2, 0, 0⟩⟩)

/-- C5: extending a range by a point it already satisfies rebuilds the
range from its own format (the formatted form is unchanged); extending
by a point outside the range appends the point as an extra `||` branch,
and the result accepts every version the original range accepted as well
as the new point. -/
theorem spec_C5 :
    ∀ (r : SRange) (p : Semver), r.valid = true →
      (r.test p = true →
        (SVersion.range r).extend (.point p) = .range ⟨r.format⟩ ∧
        SRange.format ⟨r.format⟩ = r.format) ∧
      (r.test p = false →
        (SVersion.range r).extend (.point p) =
          .range ⟨r.format ++ " || " ++ p.str⟩ ∧
        (∀ v : Semver, r.test v = true →
          SRange.test ⟨r.format ++ " || " ++ p.str⟩ v = true) ∧
        SRange.test ⟨r.format ++ " || " ++ p.str⟩ p = true) := by
  intro r p hval
  obtain ⟨S, hS⟩ := Option.isSome_iff_exists.mp hval
  have htestS : ∀ v, r.test v = testSet S v := by
    intro v
    unfold SRange.test
    rw [hS]
  constructor
  · intro htest
    refine ⟨?_, format_format hval⟩
    show (if r.test p then SVersion.range ⟨r.format⟩
      else .range ⟨r.format ++ " || " ++ p.str⟩) = _
    rw [if_pos htest]
  · intro htest
    refine ⟨?_, ?_, ?_⟩
    · show (if r.test p then SVersion.range ⟨r.format⟩
        else .range ⟨r.format ++ " || " ++ p.str⟩) = _
      rw [if_neg (by simp [htest])]
    · intro v hv
      rw [or_point_test hS, ← htestS, hv]
      rfl
    · rw [or_point_test hS]
      simp

/-- C5 witness: `>=1.0.0` extended by the satisfied point 2.0.0 and the
conclusion at that input. -/
theorem spec_C5_witness :
    (SRange.valid ⟨">=1.0.0"⟩ = true) ∧
    ((SRange.test ⟨">=1.0.0"⟩ ⟨2, 0, 0⟩ = true →
      (SVersion.range ⟨">=1.0.0"⟩).extend (.point ⟨2, 0, 0⟩) =
        .range ⟨SRange.format ⟨">=1.0.0"⟩⟩ ∧
      SRange.format ⟨SRange.format ⟨">=1.0.0"⟩⟩ = SRange.format ⟨">=1.0.0"⟩) ∧
    (SRange.test ⟨">=1.0.0"⟩ ⟨2, 0, 0⟩ = false →
      (SVersion.range ⟨">=1.0.0"⟩).extend (.point ⟨2, 0, 0⟩) =
        .range ⟨SRange.format ⟨">=1.0.0"⟩ ++ " || " ++ (Semver.mk 2 0 0).str⟩ ∧
      (∀ v : Semver, SRange.test ⟨">=1.0.0"⟩ v = true →
        SRange.test ⟨SRange.format ⟨">=1.0.0"⟩ ++ " || " ++
          (Semver.mk 2 0 0).str⟩ v = true) ∧
      SRange.test ⟨SRange.format ⟨">=1.0.0"⟩ ++ " || " ++
        (Semver.mk 2 0 0).str⟩ ⟨2, 0, 0⟩ = true)) :=
  ⟨by decide, spec_C5 ⟨">=1.0.0"⟩ ⟨2, 0, 0⟩ (by decide)⟩

/-- C6: extending a point version by a point version always produces the
range `"v1 || v2"` — literally both points, even when they coincide
(instantiate v2 := v1: the raw still lists the point twice) — and that
range tests true at both points. -/
theorem spec_C6 :
    ∀ v1 v2 : Semver,
      (SVersion.point v1).extend (.point v2) =
        .range ⟨v1.str ++ " || " ++ v2.str⟩ ∧
      SRange.test ⟨v1.str ++ " || " ++ v2.str⟩ v1 = true ∧
      SRange.test ⟨v1.str ++ " || " ++ v2.str⟩ v2 = true := by
  intro v1 v2
  refine ⟨rfl, ?_, ?_⟩ <;> rw [point_point_test] <;> simp

/-- C7: `filterForVersion` keeps exactly the entities accepted by
`filterAgainstVersion`; a point version accepts the target iff they are
equal, an unconstrained range accepts everything, and a name none of
whose versions accept the target contributes no rows to the filtered
collection. -/
theorem spec_C7 :
    ∀ (C : API) (p : Semver),
      (C.filterForVersion p).functions =
        C.functions.filter (fun f => filterAgainstVersion p f.version) ∧
      (C.filterForVersion p).tables =
        C.tables.filter (fun t => filterAgainstVersion p t.version) ∧
      (C.filterForVersion p).events =
        C.events.filter (fun e => filterAgainstVersion p e.version) ∧
      (∀ v : Semver, filterAgainstVersion p (.point v) = (p == v)) ∧
      (∀ r : SRange, r.sets = some [[Comparator.any]] →
        filterAgainstVersion p (.range r) = true) ∧
      (∀ N : String,
        (∀ f ∈ C.functions, f.name = N →
          filterAgainstVersion p f.version = false) →
        (C.filterForVersion p).functions.filter (fun f => f.name == N) = []) := by
  intro C p
  refine ⟨rfl, rfl, rfl, fun v => satisfiesStr_point p v, ?_, ?_⟩
  · intro r hr
    show r.test p = true
    unfold SRange.test
    rw [hr]
    rfl
  · intro N hN
    rw [List.filter_eq_nil_iff]
    intro f hf
    have hmem := List.mem_filter.mp hf
    intro hname
    have : f.name = N := by simpa using hname
    have := hN f hmem.1 this
    rw [this] at hmem
    simp at hmem

/-- C7 witness: filtering Scenario C's first collection for 9.9.9 leaves
no `Foo` row (its only version is the point 1.0.0). -/
theorem spec_C7_witness :
    (∀ f ∈ colC1.functions, f.name = "Foo" →
      filterAgainstVersion ⟨9, 9, 9⟩ f.version = false) ∧
    (colC1.filterForVersion ⟨9, 9, 9⟩).functions.filter
      (fun f => f.name == "Foo") = [] :=
  ⟨by decide, (spec_C7 colC1 ⟨9, 9, 9⟩).2.2.2.2.2 "Foo" (by decide)⟩

/-- C8 counterexample: the persistence schema drops table
description/type/parameters/values (and event descriptions), re-defaults
empty namespaces, and reloads a range whose raw is a bare version as a
point — so `load(serialize(C))` is not `C` for collections touching any
of those. -/
theorem spec_C8_counterexample :
    API.load (API.serialize cexAPI) ≠ some cexAPI ∧
    API.load (API.serialize ⟨[cexNsFun], [], []⟩) ≠
      some ⟨[cexNsFun], [], []⟩ ∧
    API.load (API.serialize ⟨[cexRangeFun], [], []⟩) ≠
      some ⟨[cexRangeFun], [], []⟩ ∧
    (API.load (API.serialize cexAPI)).map
        (fun a => a.tables.map fun t =>
          (t.description, t.type, t.parameters, t.values)) =
      some [("", "", [], [])] := by
  refine ⟨by decide, by decide, by decide, by decide⟩

/-- C8 (amended): `load ∘ serialize` is the identity on collections
whose versions are points or ranges with a parsable, non-point raw
string, whose namespaces are nonempty, and whose tables and events only
carry the fields the persistence schema stores (empty
description/type/parameters/values); version raw strings and all
schema-carried fields round-trip exactly. -/
theorem spec_C8 :
    ∀ C : API,
      (∀ f ∈ C.functions, versionRoundTrips f.version ∧ f.ns ≠ "") →
      (∀ t ∈ C.tables, versionRoundTrips t.version ∧ t.ns ≠ "" ∧
        t.description = "" ∧ t.type = "" ∧ t.parameters = [] ∧
        t.values = []) →
      (∀ e ∈ C.events, versionRoundTrips e.version ∧ e.ns ≠ "" ∧
        e.description = "") →
      API.load (API.serialize C) = some C := by
  intro C hf ht he
  unfold API.load API.serialize
  rw [seqParse_map loadFunction APIFunction.toJSON C.functions
      (fun f hf' => loadFunction_toJSON (hf f hf').1 (hf f hf').2),
    seqParse_map loadTable APITable.toJSON C.tables
      (fun t ht' => loadTable_toJSON (ht t ht').1 (ht t ht').2.1
        (ht t ht').2.2.1 (ht t ht').2.2.2.1 (ht t ht').2.2.2.2.1
        (ht t ht').2.2.2.2.2),
    seqParse_map loadEvent APIEvent.toJSON C.events
      (fun e he' => loadEvent_toJSON (he e he').1 (he e he').2.1
        (he e he').2.2)]
  rfl

/-- C8 witness: Scenario C's first collection round-trips exactly. -/
theorem spec_C8_witness :
    API.load (API.serialize colC1) = some colC1 :=
  spec_C8 colC1 (by decide) (by decide) (by decide)

/-- C9 counterexample: `merge()` on a builder holding zero collections
evaluates to `none` — the embedding of the explicit `return null` at
src/api.ts line 319 — i.e. the call returns an absent value instead of
raising an error. -/
theorem spec_C9_counterexample : APIBuilder.merge ([] : List API) = none := rfl

/-- C9 (amended): with zero collections `merge()` returns null (an
absent result, not an error); with at least one collection it returns
the left fold of all added collections under `combine`, seeded with the
first. -/
theorem spec_C9 :
    APIBuilder.merge ([] : List API) = none ∧
    ∀ (a : API) (rest : List API),
      APIBuilder.merge (a :: rest) = some (rest.foldl API.combine a) :=
  ⟨rfl, fun _ _ => rfl⟩

/-- C10 counterexample: with a duplicated signature in one list
(`[s, s]` against `[s, t]`, s ≠ t) the identity predicate is not
symmetric: the duplicated side matches everything it has, the other side
cannot place `t`. -/
theorem spec_C10_counterexample :
    funDupA.identicalTo funDupB = true ∧
    funDupB.identicalTo funDupA = false := by
  refine ⟨by decide, by decide⟩

/-- C10 (amended): the structural-identity predicate is symmetric
whenever the compared signature lists are duplicate-free (for all three
entity kinds). -/
theorem spec_C10 :
    (∀ a b : APIFunction, a.parameters.Nodup → a.returns.Nodup →
      b.parameters.Nodup → b.returns.Nodup →
      a.identicalTo b = b.identicalTo a) ∧
    (∀ a b : APITable, a.fields.Nodup → b.fields.Nodup →
      a.identicalTo b = b.identicalTo a) ∧
    (∀ a b : APIEvent, a.payload.Nodup → b.payload.Nodup →
      a.identicalTo b = b.identicalTo a) := by
  have hbeq : ∀ x y : String, (x == y) = (y == x) := by
    intro x y
    by_cases h : x = y
    · rw [h]
    · have h' : y ≠ x := fun hh => h hh.symm
      simp [h, h']
  refine ⟨?_, ?_, ?_⟩
  · intro a b h1 h2 h3 h4
    unfold APIFunction.identicalTo
    rw [identicalArrays_symm_nodup h1 h3, identicalArrays_symm_nodup h2 h4,
      hbeq a.name b.name, hbeq a.ns b.ns]
  · intro a b h1 h2
    unfold APITable.identicalTo
    rw [identicalArrays_symm_nodup h1 h2, hbeq a.name b.name, hbeq a.ns b.ns]
  · intro a b h1 h2
    unfold APIEvent.identicalTo
    rw [identicalArrays_symm_nodup h1 h2, hbeq a.name b.name,
      hbeq a.ns b.ns, hbeq a.literalName b.literalName]

/-- C10 witness: symmetry at two duplicate-free concrete functions. -/
theorem spec_C10_witness :
    (scFun "FooBar" (.point ⟨1, 0, 0⟩)).identicalTo
        (scFun "FooBar" (.point ⟨2, 0, 0⟩)) =
      (scFun "FooBar" (.point ⟨2, 0, 0⟩)).identicalTo
        (scFun "FooBar" (.point ⟨1, 0, 0⟩)) :=
  spec_C10.1 (scFun "FooBar" (.point ⟨1, 0, 0⟩))
    (scFun "FooBar" (.point ⟨2, 0, 0⟩)) (by decide) (by decide) (by decide)
    (by decide)

end WowDecl

